import Mathlib

/-!
Verification of the EPUB diff engine (epub_diff_cli.py, epub_simple_diff_cli.py,
epub_diff_checker.py) against its specification.

The scripts delegate all sequence matching to Python's `difflib.SequenceMatcher`
with `isjunk = None` (so the junk set is empty and the junk-extension loops of
`find_longest_match` never run) and the default `autojunk = True`.  The first
part of this file is a faithful port of that matcher over an arbitrary type
with decidable equality: `b2j` with the autojunk popularity filter,
`find_longest_match` (the j2len dynamic program plus the two non-junk extension
loops), the divide-and-conquer `get_matching_blocks` (written as an in-order
recursion, which yields the blocks already in the sorted order CPython obtains
by sorting, since blocks from disjoint subwindows are strictly ordered in both
coordinates), the adjacent-block merge, `get_opcodes`, and `ratio` (computed
exactly over ℚ; CPython computes the same quotient in binary floating point).

The second part embeds the script-level functions: `highlight_diff` (spans
carry the raw substrings; the HTML escaping and `<mark>` wrapping applied by
the scripts is an injective presentation of exactly these spans), `align`
(epub_simple_diff_cli), `compare_paragraphs` (epub_diff_cli, whose
`min_similarity` parameter is hardcoded to 0.5 in epub_diff_checker), and
`match_chapters`.  The novelty classifier is not among the provided sources and
is modelled from the spec where marked.
-/

set_option maxHeartbeats 4000000
set_option linter.unusedSectionVars false

namespace EpubDiff

variable {α : Type} [DecidableEq α]

/-- Ascending list of the positions of `c` in `b`: the value `b2j[c]` of
difflib's `b2j` dict before junk filtering. -/
def b2jList (b : List α) (c : α) : List Nat :=
  (List.range b.length).filter (fun j => decide (b.get? j = some c))

/-- difflib autojunk: with `isjunk = None` and `len(b) >= 200`, elements
occurring more than `len(b) // 100 + 1` times in `b` are "popular" and are
deleted from `b2j`. -/
def isPopular (b : List α) (c : α) : Bool :=
  decide (200 ≤ b.length) && decide (b.length / 100 + 1 < (b2jList b c).length)

/-- `b2j.get(c, [])` on the junk-filtered dict. -/
def b2jGet (b : List α) (c : α) : List Nat :=
  if isPopular b c then [] else b2jList b c

/-- `j2len.get(j, 0)` on the association list representing difflib's `j2len`
dict (one entry per key). -/
def j2Get (m : List (Nat × Nat)) (j : Nat) : Nat :=
  match m.find? (fun q => decide (q.1 = j)) with
  | some q => q.2
  | none => 0

/-- The running `(besti, bestj, bestsize)` of `find_longest_match`. -/
structure FLMState where
  besti : Nat
  bestj : Nat
  bestsize : Nat
deriving DecidableEq

/-- `a[i] == b[j]`, false when either index is out of range (the Python code
only compares in-range indices, guarded by the surrounding conditions). -/
def eqAt (a b : List α) (i j : Nat) : Bool :=
  match a.get? i, b.get? j with
  | some x, some y => decide (x = y)
  | _, _ => false

/-- The candidate columns iterated for row `i`: `b2j.get(a[i], [])` restricted
to the window `[blo, bhi)`.  The position lists are ascending, so CPython's
`continue`/`break` pair is exactly this filter. -/
def flmRowJs (a b : List α) (blo bhi i : Nat) : List Nat :=
  match a.get? i with
  | some c => (b2jGet b c).filter (fun j => decide (blo ≤ j) && decide (j < bhi))
  | none => []

/-- Inner loop of `find_longest_match` for one row `i`: `prev` is the previous
row's `j2len` (CPython binds `j2lenget` to it before the loop), `acc` is the
`newj2len` being built, and the best triple is updated whenever
`k > bestsize`. -/
def flmRow (prev : List (Nat × Nat)) (i : Nat) :
    List Nat → List (Nat × Nat) → FLMState → List (Nat × Nat) × FLMState
  | [], acc, st => (acc, st)
  | j :: js, acc, st =>
    let k := (if j = 0 then 0 else j2Get prev (j - 1)) + 1
    let st' := if st.bestsize < k then ⟨i + 1 - k, j + 1 - k, k⟩ else st
    flmRow prev i js (acc ++ [(j, k)]) st'

/-- Outer loop of `find_longest_match` over the rows `alo .. ahi-1`. -/
def flmRows (a b : List α) (blo bhi : Nat) :
    List Nat → List (Nat × Nat) → FLMState → List (Nat × Nat) × FLMState
  | [], j2len, st => (j2len, st)
  | i :: is, j2len, st =>
    let p := flmRow j2len i (flmRowJs a b blo bhi i) [] st
    flmRows a b blo bhi is p.1 p.2

/-- First (non-junk) extension loop: grow the best block backwards while the
preceding elements are equal.  With `isjunk = None` the junk set is empty, so
`not isbjunk(...)` is always true and the subsequent junk-extension loops never
run.  The fuel is instantiated with `besti`, which bounds the iteration
count. -/
def extendBackward (a b : List α) (alo blo : Nat) : Nat → FLMState → FLMState
  | 0, st => st
  | fuel + 1, st =>
    if alo < st.besti ∧ blo < st.bestj ∧
        eqAt a b (st.besti - 1) (st.bestj - 1) = true then
      extendBackward a b alo blo fuel ⟨st.besti - 1, st.bestj - 1, st.bestsize + 1⟩
    else st

/-- Second (non-junk) extension loop: grow the best block forwards.  The fuel
is instantiated with `ahi - (besti + bestsize)`, which bounds the iteration
count. -/
def extendForward (a b : List α) (ahi bhi : Nat) : Nat → FLMState → FLMState
  | 0, st => st
  | fuel + 1, st =>
    if st.besti + st.bestsize < ahi ∧ st.bestj + st.bestsize < bhi ∧
        eqAt a b (st.besti + st.bestsize) (st.bestj + st.bestsize) = true then
      extendForward a b ahi bhi fuel ⟨st.besti, st.bestj, st.bestsize + 1⟩
    else st

/-- `find_longest_match(alo, ahi, blo, bhi)`. -/
def findLongestMatch (a b : List α) (alo ahi blo bhi : Nat) : FLMState :=
  let p := flmRows a b blo bhi (List.range' alo (ahi - alo)) [] ⟨alo, blo, 0⟩
  let st1 := extendBackward a b alo blo p.2.besti p.2
  extendForward a b ahi bhi (ahi - (st1.besti + st1.bestsize)) st1

/-- Divide and conquer of `get_matching_blocks`: find the longest match, keep
it if nonempty, and recurse on the subwindows to its left and right.  The
in-order recursion produces the blocks in the sorted order CPython obtains by
sorting its queue-collected blocks.  Each recursive call strictly shrinks
`(ahi - alo) + (bhi - blo)`, so fuel `a.length + b.length + 1` never runs
out. -/
def matchingBlocksAux (a b : List α) :
    Nat → Nat → Nat → Nat → Nat → List (Nat × Nat × Nat)
  | 0, _, _, _, _ => []
  | fuel + 1, alo, ahi, blo, bhi =>
    let st := findLongestMatch a b alo ahi blo bhi
    if st.bestsize = 0 then []
    else
      matchingBlocksAux a b fuel alo st.besti blo st.bestj ++
        [(st.besti, st.bestj, st.bestsize)] ++
        matchingBlocksAux a b fuel (st.besti + st.bestsize) ahi
          (st.bestj + st.bestsize) bhi

/-- The adjacent-block merge of `get_matching_blocks` (state `(i1, j1, k1)`
starts at `(0, 0, 0)`; a pending block is emitted only if its size is
nonzero). -/
def mergeAux : Nat → Nat → Nat → List (Nat × Nat × Nat) → List (Nat × Nat × Nat)
  | i1, j1, k1, [] => if k1 = 0 then [] else [(i1, j1, k1)]
  | i1, j1, k1, (i2, j2, k2) :: rest =>
    if i1 + k1 = i2 ∧ j1 + k1 = j2 then mergeAux i1 j1 (k1 + k2) rest
    else (if k1 = 0 then [] else [(i1, j1, k1)]) ++ mergeAux i2 j2 k2 rest

/-- `get_matching_blocks()`: merged blocks plus the `(len(a), len(b), 0)`
terminator. -/
def getMatchingBlocks (a b : List α) : List (Nat × Nat × Nat) :=
  mergeAux 0 0 0
      (matchingBlocksAux a b (a.length + b.length + 1) 0 a.length 0 b.length) ++
    [(a.length, b.length, 0)]

/-- Opcode tags of `get_opcodes`. -/
inductive Tag
  | equal
  | del
  | ins
  | rep
deriving DecidableEq

/-- One opcode `(tag, i1, i2, j1, j2)`. -/
structure Opcode where
  tag : Tag
  i1 : Nat
  i2 : Nat
  j1 : Nat
  j2 : Nat
deriving DecidableEq

/-- Cursor walk of `get_opcodes` over the matching blocks. -/
def opcodesAux : Nat → Nat → List (Nat × Nat × Nat) → List Opcode
  | _, _, [] => []
  | i, j, (ai, bj, size) :: rest =>
    (if i < ai ∧ j < bj then [⟨Tag.rep, i, ai, j, bj⟩]
     else if i < ai then [⟨Tag.del, i, ai, j, bj⟩]
     else if j < bj then [⟨Tag.ins, i, ai, j, bj⟩]
     else []) ++
    (if size = 0 then [] else [⟨Tag.equal, ai, ai + size, bj, bj + size⟩]) ++
    opcodesAux (ai + size) (bj + size) rest

/-- `get_opcodes()`. -/
def getOpcodes (a b : List α) : List Opcode :=
  opcodesAux 0 0 (getMatchingBlocks a b)

/-- Total size of the matching blocks (the `matches` of `ratio()`; the
terminator contributes 0). -/
def totalMatches (a b : List α) : Nat :=
  ((getMatchingBlocks a b).map (fun t => t.2.2)).sum

/-- `ratio() = 2*M / (len(a)+len(b))`, and `1.0` when both inputs are empty,
computed exactly in ℚ. -/
def ratioQ (a b : List α) : ℚ :=
  if a.length + b.length = 0 then 1
  else (2 * totalMatches a b : ℚ) / ((a.length : ℚ) + (b.length : ℚ))

/-- Python slice `l[i:j]` (for `i ≤ j`). -/
def sliceL (l : List α) (i j : Nat) : List α := (l.drop i).take (j - i)

/-! ## Script-level data and functions -/

/-- A paragraph: extracted text as a list of characters. -/
abbrev Para := List Char

/-- Python truthiness of an `Optional[str]`: `None` and `""` are falsy. -/
def truthy : Option Para → Bool
  | none => false
  | some s => !s.isEmpty

/-- Row tags of epub_simple_diff_cli's `align`. -/
inductive RowTag
  | same
  | del
  | add
  | mod
deriving DecidableEq

/-- One aligned row `(tag, old, new, old_pos, new_pos)` of `align`. -/
structure AlignedRow where
  tag : RowTag
  old : Option Para
  new : Option Para
  old_idx : Option Nat
  new_idx : Option Nat
deriving DecidableEq

/-- The body of `align`'s replace loop at index `idx` (`op_`/`np_` are the
positional entries, `None` past the end; note the tests are Python truthiness,
so an empty string behaves like an absent side, and the final `else` emits an
`add` row even when `np_` is `None`). -/
def alignReplPair (oldb newb : List Para) (i1 j1 idx : Nat) : List AlignedRow :=
  let op? := oldb.get? idx
  let np? := newb.get? idx
  if truthy op? ∧ truthy np? then
    [⟨RowTag.mod, op?, np?, some (i1 + idx + 1), some (j1 + idx + 1)⟩]
  else if truthy op? then
    [⟨RowTag.del, op?, none, some (i1 + idx + 1), none⟩]
  else
    [⟨RowTag.add, none, np?, none, some (j1 + idx + 1)⟩]

/-- `align`'s handling of a single opcode. -/
def alignOp (p1 p2 : List Para) (oc : Opcode) : List AlignedRow :=
  match oc.tag with
  | Tag.equal =>
    (List.range (oc.i2 - oc.i1)).map (fun k =>
      ⟨RowTag.same, p1.get? (oc.i1 + k), p2.get? (oc.j1 + k),
        some (oc.i1 + k + 1), some (oc.j1 + k + 1)⟩)
  | Tag.del =>
    (List.range' oc.i1 (oc.i2 - oc.i1)).map (fun k =>
      ⟨RowTag.del, p1.get? k, none, some (k + 1), none⟩)
  | Tag.ins =>
    (List.range' oc.j1 (oc.j2 - oc.j1)).map (fun k =>
      ⟨RowTag.add, none, p2.get? k, none, some (k + 1)⟩)
  | Tag.rep =>
    let oldb := sliceL p1 oc.i1 oc.i2
    let newb := sliceL p2 oc.j1 oc.j2
    (List.range (max oldb.length newb.length)).flatMap (alignReplPair oldb newb oc.i1 oc.j1)

/-- `align(p1, p2)` of epub_simple_diff_cli. -/
def simpleAlign (p1 p2 : List Para) : List AlignedRow :=
  (getOpcodes p1 p2).flatMap (alignOp p1 p2)

/-- Result types of epub_diff_cli's `compare_paragraphs`. -/
inductive DType
  | same
  | deleted
  | added
  | modified
deriving DecidableEq

/-- One result dict of `compare_paragraphs` (`sim` is the `'similarity'` key,
present only on `modified` entries). -/
structure DiffResult where
  dtype : DType
  old : Option Para
  new : Option Para
  old_idx : Option Nat
  new_idx : Option Nat
  sim : Option ℚ
deriving DecidableEq

/-- The body of `compare_paragraphs`' replace loop at index `idx`: both sides
truthy → `modified` iff `ratio > min_similarity`, else `deleted` + `added`;
one side truthy → a single `deleted`/`added`; neither truthy → nothing. -/
def cmpReplPair (oldb newb : List Para) (i1 j1 : Nat) (minSim : ℚ) (idx : Nat) :
    List DiffResult :=
  let op? := oldb.get? idx
  let np? := newb.get? idx
  if truthy op? ∧ truthy np? then
    let rq := ratioQ (op?.getD []) (np?.getD [])
    if minSim < rq then
      [⟨DType.modified, op?, np?, some (i1 + idx + 1), some (j1 + idx + 1), some rq⟩]
    else
      [⟨DType.deleted, op?, none, some (i1 + idx + 1), none, none⟩,
       ⟨DType.added, none, np?, none, some (j1 + idx + 1), none⟩]
  else if truthy op? then
    [⟨DType.deleted, op?, none, some (i1 + idx + 1), none, none⟩]
  else if truthy np? then
    [⟨DType.added, none, np?, none, some (j1 + idx + 1), none⟩]
  else []

/-- The whole replace branch of `compare_paragraphs`: positional pairing up to
`max(len(old_block), len(new_block))`. -/
def replaceBlock (oldb newb : List Para) (i1 j1 : Nat) (minSim : ℚ) : List DiffResult :=
  (List.range (max oldb.length newb.length)).flatMap (cmpReplPair oldb newb i1 j1 minSim)

/-- `compare_paragraphs`' handling of a single opcode. -/
def cmpOp (p1 p2 : List Para) (minSim : ℚ) (oc : Opcode) : List DiffResult :=
  match oc.tag with
  | Tag.equal =>
    (List.range' oc.i1 (oc.i2 - oc.i1)).map (fun idx =>
      ⟨DType.same, p1.get? idx, p2.get? (idx - oc.i1 + oc.j1),
        some (idx + 1), some (idx - oc.i1 + oc.j1 + 1), none⟩)
  | Tag.del =>
    (List.range' oc.i1 (oc.i2 - oc.i1)).map (fun idx =>
      ⟨DType.deleted, p1.get? idx, none, some (idx + 1), none, none⟩)
  | Tag.ins =>
    (List.range' oc.j1 (oc.j2 - oc.j1)).map (fun idx =>
      ⟨DType.added, none, p2.get? idx, none, some (idx + 1), none⟩)
  | Tag.rep =>
    replaceBlock (sliceL p1 oc.i1 oc.i2) (sliceL p2 oc.j1 oc.j2) oc.i1 oc.j1 minSim

/-- `compare_paragraphs(paras1, paras2, min_similarity)` of epub_diff_cli
(epub_diff_checker hardcodes `min_similarity = 0.5`). -/
def compareParagraphs (p1 p2 : List Para) (minSim : ℚ) : List DiffResult :=
  (getOpcodes p1 p2).flatMap (cmpOp p1 p2 minSim)

/-- Span kinds of `highlight_diff`'s renderings: plain (Equal) or
marked-as-changed (wrapped in `<mark>` by the script). -/
inductive SpanKind
  | plain
  | marked
deriving DecidableEq

/-- One span of a rendering.  `text` is the raw substring; the script emits
`html.escape(text)` optionally wrapped in `<mark>..</mark>`, an injective
presentation of exactly this data. -/
structure Span where
  kind : SpanKind
  text : List Char
deriving DecidableEq

/-- Spans appended to the left rendering `o1` for one opcode. -/
def highlightOpLeft (t1 : List Char) (oc : Opcode) : List Span :=
  match oc.tag with
  | Tag.equal => [⟨SpanKind.plain, sliceL t1 oc.i1 oc.i2⟩]
  | Tag.del => [⟨SpanKind.marked, sliceL t1 oc.i1 oc.i2⟩]
  | Tag.ins => []
  | Tag.rep => [⟨SpanKind.marked, sliceL t1 oc.i1 oc.i2⟩]

/-- Spans appended to the right rendering `o2` for one opcode. -/
def highlightOpRight (t2 : List Char) (oc : Opcode) : List Span :=
  match oc.tag with
  | Tag.equal => [⟨SpanKind.plain, sliceL t2 oc.j1 oc.j2⟩]
  | Tag.del => []
  | Tag.ins => [⟨SpanKind.marked, sliceL t2 oc.j1 oc.j2⟩]
  | Tag.rep => [⟨SpanKind.marked, sliceL t2 oc.j1 oc.j2⟩]

/-- `highlight_diff(t1, t2)` of epub_simple_diff_cli: on literally identical
inputs it returns the two texts unchanged with `changed = False`; otherwise it
renders the opcodes into the two span sequences with `changed = True`. -/
def highlightDiff (t1 t2 : List Char) : List Span × List Span × Bool :=
  if t1 = t2 then ([⟨SpanKind.plain, t1⟩], [⟨SpanKind.plain, t2⟩], false)
  else
    ((getOpcodes t1 t2).flatMap (highlightOpLeft t1),
     (getOpcodes t1 t2).flatMap (highlightOpRight t2), true)

/-- A chapter as produced by the extractor: title, paragraphs, and their
joined `full_text`. -/
structure Chapter where
  title : List Char
  paragraphs : List Para
  full_text : List Char
deriving DecidableEq

/-- The content score used by `match_chapters`: similarity of the first 500
characters of the two chapters' `full_text`. -/
def chapterScore (ch1 ch2 : Chapter) : ℚ :=
  ratioQ (ch1.full_text.take 500) (ch2.full_text.take 500)

/-- The inner scan of `match_chapters` over `enumerate(chapters2)` with state
`(best_match, best_score)` starting at `(None, 0)`: used chapters are skipped;
an exact title match sets `best_match = j`, `best_score = 1.0` and breaks;
otherwise the candidate is taken when `ratio > best_score and ratio > 0.3`. -/
def scanPair (ch1 : Chapter) (used : List Nat) :
    List (Nat × Chapter) → Option Nat → ℚ → Option Nat × ℚ
  | [], best, score => (best, score)
  | (j, ch2) :: rest, best, score =>
    if j ∈ used then scanPair ch1 used rest best score
    else if ch1.title = ch2.title then (some j, 1)
    else
      let rq := chapterScore ch1 ch2
      if score < rq ∧ (3 : ℚ) / 10 < rq then scanPair ch1 used rest (some j) rq
      else scanPair ch1 used rest best score

/-- The outer loop of `match_chapters` over `enumerate(chapters1)`, carrying
the `matched` list and the `used_j` set (as a list). -/
def matchAux (c2e : List (Nat × Chapter)) :
    List (Nat × Chapter) → List (Option Nat × Option Nat) → List Nat →
      List (Option Nat × Option Nat) × List Nat
  | [], matched, used => (matched, used)
  | (i, ch1) :: rest, matched, used =>
    match (scanPair ch1 used c2e none 0).1 with
    | some j => matchAux c2e rest (matched ++ [(some i, some j)]) (used ++ [j])
    | none => matchAux c2e rest (matched ++ [(some i, none)]) used

/-- `match_chapters(chapters1, chapters2)`: greedy pass over the old chapters,
then every never-claimed new chapter is appended as `(None, j)` in order. -/
def matchChapters (c1 c2 : List Chapter) : List (Option Nat × Option Nat) :=
  let p := matchAux c2.enum c1.enum [] []
  p.1 ++ ((List.range c2.length).filter (fun j => decide (j ∉ p.2))).map
    (fun j => ((none : Option Nat), some j))

/-! ## Novelty classifier (code not among the provided sources; modelled from
the spec) -/

/-- Modelled from the spec: the Normalizer removes all whitespace runs from a
text unit, producing its comparison key. -/
def normalizeKey (s : List Char) : List Char := s.filter (fun c => !c.isWhitespace)

/-- Modelled from the spec: sentence-terminal punctuation, including non-Latin
terminators. -/
def isTerminator (c : Char) : Bool :=
  c = '.' || c = '!' || c = '?' || c = '。' || c = '！' || c = '？'

/-- Modelled from the spec: split a paragraph into sentence-like segments on
sentence-terminal punctuation. -/
def splitSentences (s : List Char) : List (List Char) :=
  (s.splitOnP isTerminator).filter (fun seg => !seg.isEmpty)

/-- Modelled from the spec: the reference set of normalized keys built from
the baseline's whole paragraphs and their sentence splits. -/
def refKeys (baseline : List Para) : List (List Char) :=
  baseline.map normalizeKey ++ (baseline.flatMap splitSentences).map normalizeKey

/-- Modelled from the spec: the qualifying sentence segments of a paragraph —
normalized segments of at least 10 characters. -/
def sentenceSegs (p : Para) : List (List Char) :=
  ((splitSentences p).map normalizeKey).filter (fun s => 10 ≤ s.length)

/-- Modelled from the spec: `is_new(p)` of the Novelty Classifier, returning
`(new?, confidence)`.  Step 1: exact key in the reference set → not new, 1.0.
Step 2: containment either way against a baseline paragraph key → not new,
0.9.  Step 3: ratio of qualifying segments found exactly in the reference set
or contained in one of the first 500 baseline paragraph keys; no qualifying
segments → not new, 1.0; otherwise new iff the ratio is below 0.5, returning
the ratio. -/
def isNewPara (baseline : List Para) (p : Para) : Bool × ℚ :=
  let rks := refKeys baseline
  let paraKeys := baseline.map normalizeKey
  let key := normalizeKey p
  if key ∈ rks then (false, 1)
  else if paraKeys.any (fun rk => decide (key <:+: rk) || decide (rk <:+: key)) then
    (false, 9 / 10)
  else
    let segs := sentenceSegs p
    if segs.isEmpty then (false, 1)
    else
      let matched := segs.countP (fun s =>
        decide (s ∈ rks) || (paraKeys.take 500).any (fun rk => decide (s <:+: rk)))
      let rq : ℚ := (matched : ℚ) / (segs.length : ℚ)
      (decide (rq < 1 / 2), rq)

end EpubDiff

namespace EpubDiff

/-! ## Invariants of find_longest_match -/

variable {α : Type} [DecidableEq α]

theorem mem_b2jList {b : List α} {c : α} {j : Nat} (h : j ∈ b2jList b c) :
    j < b.length ∧ b.get? j = some c := by
  unfold b2jList at h
  rcases List.mem_filter.mp h with ⟨hr, hp⟩
  exact ⟨List.mem_range.mp hr, of_decide_eq_true hp⟩

theorem mem_b2jGet {b : List α} {c : α} {j : Nat} (h : j ∈ b2jGet b c) :
    j < b.length ∧ b.get? j = some c := by
  unfold b2jGet at h
  by_cases hp : isPopular b c
  · simp [hp] at h
  · rw [if_neg hp] at h
    exact mem_b2jList h

theorem mem_flmRowJs {a b : List α} {blo bhi i j : Nat}
    (h : j ∈ flmRowJs a b blo bhi i) :
    blo ≤ j ∧ j < bhi ∧ eqAt a b i j = true := by
  unfold flmRowJs at h
  cases hai : a.get? i with
  | none => rw [hai] at h; simp at h
  | some c =>
    rw [hai] at h
    rcases List.mem_filter.mp h with ⟨hb, hp⟩
    simp only [Bool.and_eq_true, decide_eq_true_eq] at hp
    refine ⟨hp.1, hp.2, ?_⟩
    rcases mem_b2jGet hb with ⟨-, hbj⟩
    unfold eqAt
    rw [hai, hbj]
    simp

/-- Invariant of the best triple: it lies in the window, ends at a row already
processed (`besti + bestsize ≤ iB`), and its elements match pairwise. -/
structure StInv (a b : List α) (alo blo bhi iB : Nat) (st : FLMState) : Prop where
  h1 : alo ≤ st.besti
  h2 : st.besti + st.bestsize ≤ iB
  h3 : blo ≤ st.bestj
  h4 : st.bestj + st.bestsize ≤ bhi
  heq : ∀ t, t < st.bestsize → eqAt a b (st.besti + t) (st.bestj + t) = true

theorem StInv.mono {a b : List α} {alo blo bhi iB iB' : Nat} {st : FLMState}
    (h : StInv a b alo blo bhi iB st) (hle : iB ≤ iB') :
    StInv a b alo blo bhi iB' st :=
  ⟨h.h1, le_trans h.h2 hle, h.h3, h.h4, h.heq⟩

/-- Invariant of a `j2len` association list whose entries describe runs ending
at row `iNext - 1`. -/
def J2Inv (a b : List α) (alo blo bhi iNext : Nat) (m : List (Nat × Nat)) : Prop :=
  ∀ p ∈ m, blo ≤ p.1 ∧ p.1 < bhi ∧ blo + p.2 ≤ p.1 + 1 ∧ alo + p.2 ≤ iNext ∧
    ∀ t, t < p.2 → eqAt a b (iNext - 1 - t) (p.1 - t) = true

theorem j2Get_inv {a b : List α} {alo blo bhi iNext : Nat} {m : List (Nat × Nat)}
    (hm : J2Inv a b alo blo bhi iNext m) (j : Nat) :
    j2Get m j = 0 ∨
      (blo ≤ j ∧ j < bhi ∧ blo + j2Get m j ≤ j + 1 ∧ alo + j2Get m j ≤ iNext ∧
        ∀ t, t < j2Get m j → eqAt a b (iNext - 1 - t) (j - t) = true) := by
  unfold j2Get
  cases hf : m.find? (fun q => decide (q.1 = j)) with
  | none => exact Or.inl rfl
  | some q =>
    right
    have hmem := List.mem_of_find?_eq_some hf
    have hqj0 := List.find?_some hf
    have hqj : q.1 = j := of_decide_eq_true hqj0
    have hq := hm q hmem
    rw [hqj] at hq
    exact hq

theorem flmRow_inv {a b : List α} {alo blo bhi i : Nat}
    {prev : List (Nat × Nat)} (hi : alo ≤ i)
    (hprev : J2Inv a b alo blo bhi i prev) :
    ∀ {js : List Nat} {acc : List (Nat × Nat)} {st : FLMState},
      (∀ j ∈ js, blo ≤ j ∧ j < bhi ∧ eqAt a b i j = true) →
      J2Inv a b alo blo bhi (i + 1) acc →
      StInv a b alo blo bhi (i + 1) st →
      J2Inv a b alo blo bhi (i + 1) (flmRow prev i js acc st).1 ∧
        StInv a b alo blo bhi (i + 1) (flmRow prev i js acc st).2 := by
  intro js
  induction js with
  | nil => intro acc st _ hacc hst; exact ⟨hacc, hst⟩
  | cons j js ih =>
    intro acc st hjs hacc hst
    rcases hjs j (List.mem_cons_self j js) with ⟨hblo, hbhi, heqj⟩
    have hk : blo + ((if j = 0 then 0 else j2Get prev (j - 1)) + 1) ≤ j + 1 ∧
        alo + ((if j = 0 then 0 else j2Get prev (j - 1)) + 1) ≤ i + 1 ∧
        ∀ t, t < (if j = 0 then 0 else j2Get prev (j - 1)) + 1 →
          eqAt a b (i - t) (j - t) = true := by
      by_cases hj0 : j = 0
      · subst hj0
        rw [if_pos rfl]
        refine ⟨by omega, by omega, ?_⟩
        intro t ht
        have ht0 : t = 0 := by omega
        subst ht0
        simpa using heqj
      · rw [if_neg hj0]
        rcases j2Get_inv hprev (j - 1) with hz | ⟨hb1, hb2, hb3, hb4, hrun⟩
        · rw [hz]
          refine ⟨by omega, by omega, ?_⟩
          intro t ht
          have ht0 : t = 0 := by omega
          subst ht0
          simpa using heqj
        · refine ⟨by omega, by omega, ?_⟩
          intro t ht
          rcases Nat.eq_zero_or_pos t with ht0 | htp
          · subst ht0; simpa using heqj
          · have h1 : i - t = i - 1 - (t - 1) := by omega
            have h2 : j - t = j - 1 - (t - 1) := by omega
            rw [h1, h2]
            exact hrun (t - 1) (by omega)
    rcases hk with ⟨hka, hkb, hkr⟩
    simp only [flmRow]
    apply ih
    · intro j' hj'; exact hjs j' (List.mem_cons_of_mem j hj')
    · -- invariant of the extended newj2len
      intro p hp
      rcases List.mem_append.mp hp with hin | hnew
      · exact hacc p hin
      · have hpv : p = (j, (if j = 0 then 0 else j2Get prev (j - 1)) + 1) := by
          simpa using hnew
        subst hpv
        refine ⟨hblo, hbhi, hka, by omega, ?_⟩
        intro t ht
        have ht' : t < (if j = 0 then 0 else j2Get prev (j - 1)) + 1 := ht
        show eqAt a b (i + 1 - 1 - t) (j - t) = true
        have harith : i + 1 - 1 - t = i - t := by omega
        rw [harith]
        exact hkr t ht'
    · -- invariant of the updated best state
      by_cases hlt : st.bestsize < (if j = 0 then 0 else j2Get prev (j - 1)) + 1
      · rw [if_pos hlt]
        refine ⟨?_, ?_, ?_, ?_, ?_⟩
        · show alo ≤ i + 1 - ((if j = 0 then 0 else j2Get prev (j - 1)) + 1)
          omega
        · show i + 1 - ((if j = 0 then 0 else j2Get prev (j - 1)) + 1) +
            ((if j = 0 then 0 else j2Get prev (j - 1)) + 1) ≤ i + 1
          omega
        · show blo ≤ j + 1 - ((if j = 0 then 0 else j2Get prev (j - 1)) + 1)
          omega
        · show j + 1 - ((if j = 0 then 0 else j2Get prev (j - 1)) + 1) +
            ((if j = 0 then 0 else j2Get prev (j - 1)) + 1) ≤ bhi
          omega
        · intro t ht
          have ht' : t < (if j = 0 then 0 else j2Get prev (j - 1)) + 1 := ht
          set k := (if j = 0 then 0 else j2Get prev (j - 1)) + 1 with hkdef
          show eqAt a b (i + 1 - k + t) (j + 1 - k + t) = true
          have h1 : i + 1 - k + t = i - (k - 1 - t) := by omega
          have h2 : j + 1 - k + t = j - (k - 1 - t) := by omega
          rw [h1, h2]
          exact hkr (k - 1 - t) (by omega)
      · rw [if_neg hlt]
        exact hst

theorem flmRows_inv {a b : List α} {alo blo bhi : Nat} :
    ∀ (cnt i0 : Nat) (m : List (Nat × Nat)) (st : FLMState),
      alo ≤ i0 →
      J2Inv a b alo blo bhi i0 m →
      StInv a b alo blo bhi i0 st →
      StInv a b alo blo bhi (i0 + cnt)
        (flmRows a b blo bhi (List.range' i0 cnt) m st).2 := by
  intro cnt
  induction cnt with
  | zero => intro i0 m st _ _ hst; simpa [flmRows] using hst
  | succ n ih =>
    intro i0 m st hi0 hm hst
    rw [List.range'_succ]
    simp only [flmRows]
    have hrow := flmRow_inv hi0 hm
      (fun j hj => mem_flmRowJs hj)
      (show J2Inv a b alo blo bhi (i0 + 1) [] by intro p hp; simp at hp)
      (hst.mono (Nat.le_succ i0))
    have hrec := ih (i0 + 1) _ _ (by omega) hrow.1 hrow.2
    have harith : i0 + 1 + n = i0 + (n + 1) := by omega
    rwa [harith] at hrec

theorem extendBackward_inv {a b : List α} {alo blo bhi ahi : Nat} :
    ∀ (fuel : Nat) (st : FLMState),
      StInv a b alo blo bhi ahi st →
      StInv a b alo blo bhi ahi (extendBackward a b alo blo fuel st) := by
  intro fuel
  induction fuel with
  | zero => intro st hst; exact hst
  | succ n ih =>
    intro st hst
    simp only [extendBackward]
    by_cases hc : alo < st.besti ∧ blo < st.bestj ∧
        eqAt a b (st.besti - 1) (st.bestj - 1) = true
    · rw [if_pos hc]
      apply ih
      rcases hc with ⟨hc1, hc2, hc3⟩
      refine ⟨?_, ?_, ?_, ?_, ?_⟩
      · show alo ≤ st.besti - 1
        omega
      · show st.besti - 1 + (st.bestsize + 1) ≤ ahi
        have := hst.h2
        omega
      · show blo ≤ st.bestj - 1
        omega
      · show st.bestj - 1 + (st.bestsize + 1) ≤ bhi
        have := hst.h4
        omega
      · intro t ht
        have ht' : t < st.bestsize + 1 := ht
        rcases Nat.eq_zero_or_pos t with ht0 | htp
        · subst ht0
          show eqAt a b (st.besti - 1 + 0) (st.bestj - 1 + 0) = true
          simpa using hc3
        · show eqAt a b (st.besti - 1 + t) (st.bestj - 1 + t) = true
          have h1 : st.besti - 1 + t = st.besti + (t - 1) := by omega
          have h2 : st.bestj - 1 + t = st.bestj + (t - 1) := by omega
          rw [h1, h2]
          exact hst.heq (t - 1) (by omega)
    · rw [if_neg hc]
      exact hst

theorem extendForward_inv {a b : List α} {alo blo bhi ahi : Nat} :
    ∀ (fuel : Nat) (st : FLMState),
      StInv a b alo blo bhi ahi st →
      StInv a b alo blo bhi ahi (extendForward a b ahi bhi fuel st) := by
  intro fuel
  induction fuel with
  | zero => intro st hst; exact hst
  | succ n ih =>
    intro st hst
    simp only [extendForward]
    by_cases hc : st.besti + st.bestsize < ahi ∧ st.bestj + st.bestsize < bhi ∧
        eqAt a b (st.besti + st.bestsize) (st.bestj + st.bestsize) = true
    · rw [if_pos hc]
      apply ih
      rcases hc with ⟨hc1, hc2, hc3⟩
      refine ⟨hst.h1, ?_, hst.h3, ?_, ?_⟩
      · show st.besti + (st.bestsize + 1) ≤ ahi
        omega
      · show st.bestj + (st.bestsize + 1) ≤ bhi
        omega
      · intro t ht
        have ht' : t < st.bestsize + 1 := ht
        show eqAt a b (st.besti + t) (st.bestj + t) = true
        rcases Nat.lt_or_ge t st.bestsize with htl | htg
        · exact hst.heq t htl
        · have hteq : t = st.bestsize := by omega
          subst hteq
          exact hc3
    · rw [if_neg hc]
      exact hst

/-- The block returned by `find_longest_match` lies inside the window and its
elements match pairwise. -/
theorem findLongestMatch_inv {a b : List α} {alo ahi blo bhi : Nat}
    (ha : alo ≤ ahi) (hb : blo ≤ bhi) :
    StInv a b alo blo bhi ahi (findLongestMatch a b alo ahi blo bhi) := by
  unfold findLongestMatch
  have h0 : StInv a b alo blo bhi alo (⟨alo, blo, 0⟩ : FLMState) := by
    refine ⟨?_, ?_, ?_, ?_, ?_⟩
    · show alo ≤ alo
      omega
    · show alo + 0 ≤ alo
      omega
    · show blo ≤ blo
      omega
    · show blo + 0 ≤ bhi
      omega
    · intro t ht
      have ht' : t < 0 := ht
      omega
  have hrows := flmRows_inv (ahi - alo) alo [] ⟨alo, blo, 0⟩ (le_refl _)
    (show J2Inv a b alo blo bhi alo [] by intro p hp; simp at hp) h0
  have harith : alo + (ahi - alo) = ahi := by omega
  rw [harith] at hrows
  exact extendForward_inv _ _ (extendBackward_inv _ _ hrows)

end EpubDiff

namespace EpubDiff

/-! ## The matching blocks form an ordered chain -/

variable {α : Type} [DecidableEq α]

/-- The blocks of a window, in order: each is nonempty, starts no earlier than
the window/cursor, ends before the next begins, stays inside the window, and
its elements match pairwise. -/
inductive Chained (a b : List α) : Nat → Nat → List (Nat × Nat × Nat) → Nat → Nat → Prop
  | nil {alo blo ahi bhi : Nat} : alo ≤ ahi → blo ≤ bhi → Chained a b alo blo [] ahi bhi
  | cons {alo blo ahi bhi bi bj k : Nat} {rest : List (Nat × Nat × Nat)} :
      alo ≤ bi → blo ≤ bj → 0 < k →
      (∀ t, t < k → eqAt a b (bi + t) (bj + t) = true) →
      Chained a b (bi + k) (bj + k) rest ahi bhi →
      Chained a b alo blo ((bi, bj, k) :: rest) ahi bhi

theorem Chained.bounds {a b : List α} {alo blo ahi bhi : Nat}
    {bl : List (Nat × Nat × Nat)} (h : Chained a b alo blo bl ahi bhi) :
    alo ≤ ahi ∧ blo ≤ bhi := by
  induction h with
  | nil h1 h2 => exact ⟨h1, h2⟩
  | cons h1 h2 h3 _ _ ih => omega

theorem Chained.weaken {a b : List α} {alo blo alo' blo' ahi bhi : Nat}
    {bl : List (Nat × Nat × Nat)} (h : Chained a b alo blo bl ahi bhi)
    (h1 : alo' ≤ alo) (h2 : blo' ≤ blo) : Chained a b alo' blo' bl ahi bhi := by
  cases h with
  | nil ha hb => exact Chained.nil (by omega) (by omega)
  | cons ha hb hk heq hrest => exact Chained.cons (by omega) (by omega) hk heq hrest

theorem Chained.append {a b : List α} {alo blo c1 c2 ahi bhi : Nat}
    {l1 l2 : List (Nat × Nat × Nat)} (h1 : Chained a b alo blo l1 c1 c2)
    (h2 : Chained a b c1 c2 l2 ahi bhi) :
    Chained a b alo blo (l1 ++ l2) ahi bhi := by
  induction h1 with
  | nil ha hb => exact h2.weaken ha hb
  | cons ha hb hk heq _ ih => exact Chained.cons ha hb hk heq (ih h2)

theorem matchingBlocksAux_chained {a b : List α} :
    ∀ (fuel alo ahi blo bhi : Nat), alo ≤ ahi → blo ≤ bhi →
      Chained a b alo blo (matchingBlocksAux a b fuel alo ahi blo bhi) ahi bhi := by
  intro fuel
  induction fuel with
  | zero => intro alo ahi blo bhi ha hb; exact Chained.nil ha hb
  | succ n ih =>
    intro alo ahi blo bhi ha hb
    simp only [matchingBlocksAux, List.append_assoc, List.singleton_append]
    have hinv := findLongestMatch_inv (a := a) (b := b) ha hb
    set st := findLongestMatch a b alo ahi blo bhi with hstdef
    by_cases h0 : st.bestsize = 0
    · rw [if_pos h0]; exact Chained.nil ha hb
    · rw [if_neg h0]
      have hl := ih alo st.besti blo st.bestj hinv.h1 hinv.h3
      have hr := ih (st.besti + st.bestsize) ahi (st.bestj + st.bestsize) bhi
        hinv.h2 hinv.h4
      exact hl.append (Chained.cons (le_refl _) (le_refl _) (by omega) hinv.heq hr)

theorem mergeAux_chained {a b : List α} :
    ∀ (bl : List (Nat × Nat × Nat)) (i1 j1 k1 alo blo ahi bhi : Nat),
      alo ≤ i1 → blo ≤ j1 →
      (∀ t, t < k1 → eqAt a b (i1 + t) (j1 + t) = true) →
      Chained a b (i1 + k1) (j1 + k1) bl ahi bhi →
      Chained a b alo blo (mergeAux i1 j1 k1 bl) ahi bhi := by
  intro bl
  induction bl with
  | nil =>
    intro i1 j1 k1 alo blo ahi bhi ha hb heq hch
    rcases hch.bounds with ⟨hb1, hb2⟩
    simp only [mergeAux]
    by_cases h0 : k1 = 0
    · rw [if_pos h0]; exact Chained.nil (by omega) (by omega)
    · rw [if_neg h0]
      exact Chained.cons ha hb (by omega) heq (Chained.nil hb1 hb2)
  | cons blk rest ih =>
    intro i1 j1 k1 alo blo ahi bhi ha hb heq hch
    rcases blk with ⟨i2, j2, k2⟩
    cases hch with
    | cons ha2 hb2 hk2 heq2 hrest =>
      simp only [mergeAux]
      by_cases hadj : i1 + k1 = i2 ∧ j1 + k1 = j2
      · rw [if_pos hadj]
        apply ih i1 j1 (k1 + k2) alo blo ahi bhi ha hb
        · intro t ht
          rcases Nat.lt_or_ge t k1 with h | h
          · exact heq t h
          · have h1 : i1 + t = i2 + (t - k1) := by omega
            have h2 : j1 + t = j2 + (t - k1) := by omega
            rw [h1, h2]
            exact heq2 (t - k1) (by omega)
        · have h1 : i1 + (k1 + k2) = i2 + k2 := by omega
          have h2 : j1 + (k1 + k2) = j2 + k2 := by omega
          rw [h1, h2]
          exact hrest
      · rw [if_neg hadj]
        have hrec := ih i2 j2 k2 (i1 + k1) (j1 + k1) ahi bhi ha2 hb2 heq2 hrest
        by_cases h0 : k1 = 0
        · rw [if_pos h0]
          simp only [List.nil_append]
          exact hrec.weaken (by omega) (by omega)
        · rw [if_neg h0]
          simp only [List.singleton_append]
          exact Chained.cons ha hb (by omega) heq hrec

/-- The merged matching blocks (without the terminator) form a chain over the
whole pair of sequences. -/
theorem mergedBlocks_chained (a b : List α) :
    Chained a b 0 0
      (mergeAux 0 0 0
        (matchingBlocksAux a b (a.length + b.length + 1) 0 a.length 0 b.length))
      a.length b.length := by
  apply mergeAux_chained _ 0 0 0 0 0 a.length b.length (le_refl _) (le_refl _)
  · intro t ht; omega
  · exact matchingBlocksAux_chained _ 0 a.length 0 b.length (Nat.zero_le _) (Nat.zero_le _)

/-! ## Soundness of the opcode list -/

/-- Structure of an opcode list produced by `get_opcodes`, walked with the
cursor starting at `(i, j)` and ending at `(len a, len b)`: the ranges tile
both sequences with no gaps or overlaps, `equal` ranges have the same length
and match pairwise, `del`/`ins` ranges are one-sided, and `rep` ranges are
nonempty on both sides. -/
inductive OpsOK (a b : List α) : Nat → Nat → List Opcode → Prop
  | nil : OpsOK a b a.length b.length []
  | cons {i j : Nat} {oc : Opcode} {rest : List Opcode} :
      oc.i1 = i → oc.j1 = j → oc.i1 ≤ oc.i2 → oc.j1 ≤ oc.j2 →
      oc.i2 ≤ a.length → oc.j2 ≤ b.length →
      (oc.tag = Tag.equal → oc.i2 - oc.i1 = oc.j2 - oc.j1 ∧ 0 < oc.i2 - oc.i1 ∧
        ∀ t, t < oc.i2 - oc.i1 → eqAt a b (oc.i1 + t) (oc.j1 + t) = true) →
      (oc.tag = Tag.del → oc.j2 = oc.j1 ∧ oc.i1 < oc.i2) →
      (oc.tag = Tag.ins → oc.i2 = oc.i1 ∧ oc.j1 < oc.j2) →
      (oc.tag = Tag.rep → oc.i1 < oc.i2 ∧ oc.j1 < oc.j2) →
      OpsOK a b oc.i2 oc.j2 rest →
      OpsOK a b i j (oc :: rest)

/-- Smart constructor for `OpsOK.cons` on a literal opcode. -/
theorem OpsOK.mk' {a b : List α} {i j : Nat} {tg : Tag} {i2 j2 : Nat}
    {rest : List Opcode}
    (h1 : i ≤ i2) (h2 : j ≤ j2) (h3 : i2 ≤ a.length) (h4 : j2 ≤ b.length)
    (h5 : tg = Tag.equal → i2 - i = j2 - j ∧ 0 < i2 - i ∧
      ∀ t, t < i2 - i → eqAt a b (i + t) (j + t) = true)
    (h6 : tg = Tag.del → j2 = j ∧ i < i2)
    (h7 : tg = Tag.ins → i2 = i ∧ j < j2)
    (h8 : tg = Tag.rep → i < i2 ∧ j < j2)
    (h9 : OpsOK a b i2 j2 rest) :
    OpsOK a b i j (⟨tg, i, i2, j, j2⟩ :: rest) :=
  OpsOK.cons rfl rfl h1 h2 h3 h4 h5 h6 h7 h8 h9

theorem opcodesAux_ok {a b : List α} :
    ∀ (bl : List (Nat × Nat × Nat)) (i j : Nat),
      Chained a b i j bl a.length b.length →
      OpsOK a b i j (opcodesAux i j (bl ++ [(a.length, b.length, 0)])) := by
  intro bl
  induction bl with
  | nil =>
    intro i j hch
    rcases hch.bounds with ⟨hia, hjb⟩
    simp only [List.nil_append, opcodesAux]
    rw [if_pos trivial]
    simp only [List.append_nil]
    by_cases hi : i < a.length <;> by_cases hj : j < b.length
    · rw [if_pos ⟨hi, hj⟩]
      exact OpsOK.mk' (by omega) (by omega) (le_refl _) (le_refl _)
        (fun h => nomatch h) (fun h => nomatch h) (fun h => nomatch h)
        (fun _ => ⟨hi, hj⟩) OpsOK.nil
    · rw [if_neg (by omega), if_pos hi]
      exact OpsOK.mk' (by omega) (by omega) (le_refl _) (by omega)
        (fun h => nomatch h) (fun _ => ⟨by omega, hi⟩) (fun h => nomatch h)
        (fun h => nomatch h) OpsOK.nil
    · rw [if_neg (by omega), if_neg (by omega), if_pos hj]
      exact OpsOK.mk' (by omega) (by omega) (by omega) (le_refl _)
        (fun h => nomatch h) (fun h => nomatch h) (fun _ => ⟨by omega, hj⟩)
        (fun h => nomatch h) OpsOK.nil
    · rw [if_neg (by omega), if_neg (by omega), if_neg (by omega)]
      have hieq : i = a.length := by omega
      have hjeq : j = b.length := by omega
      rw [hieq, hjeq]
      exact OpsOK.nil
  | cons blk rest ih =>
    intro i j hch
    rcases blk with ⟨bi, bj, k⟩
    cases hch with
    | cons hib hjb hk heq hrest =>
      have hbla : bi + k ≤ a.length := (hrest.bounds).1
      have hblb : bj + k ≤ b.length := (hrest.bounds).2
      simp only [List.cons_append, opcodesAux]
      rw [if_neg (show ¬k = 0 by omega)]
      have hrec := ih (bi + k) (bj + k) hrest
      have heqop : OpsOK a b bi bj
          (⟨Tag.equal, bi, bi + k, bj, bj + k⟩ ::
            opcodesAux (bi + k) (bj + k) (rest ++ [(a.length, b.length, 0)])) :=
        OpsOK.mk' (by omega) (by omega) hbla hblb
          (fun _ => ⟨by omega, by omega, fun t ht => heq t (by omega)⟩)
          (fun h => nomatch h) (fun h => nomatch h) (fun h => nomatch h) hrec
      by_cases hi : i < bi <;> by_cases hj : j < bj
      · rw [if_pos ⟨hi, hj⟩]
        simp only [List.singleton_append, List.append_assoc, List.cons_append,
          List.nil_append]
        exact OpsOK.mk' (by omega) (by omega) (by omega) (by omega)
          (fun h => nomatch h) (fun h => nomatch h) (fun h => nomatch h)
          (fun _ => ⟨hi, hj⟩) heqop
      · rw [if_neg (by omega), if_pos hi]
        simp only [List.singleton_append, List.append_assoc, List.cons_append,
          List.nil_append]
        have hjeq : j = bj := by omega
        rw [hjeq]
        exact OpsOK.mk' (by omega) (by omega) (by omega) (by omega)
          (fun h => nomatch h) (fun _ => ⟨rfl, hi⟩) (fun h => nomatch h)
          (fun h => nomatch h) heqop
      · rw [if_neg (by omega), if_neg (by omega), if_pos hj]
        simp only [List.singleton_append, List.append_assoc, List.cons_append,
          List.nil_append]
        have hieq : i = bi := by omega
        rw [hieq]
        exact OpsOK.mk' (by omega) (by omega) (by omega) (by omega)
          (fun h => nomatch h) (fun h => nomatch h) (fun _ => ⟨rfl, hj⟩)
          (fun h => nomatch h) heqop
      · rw [if_neg (by omega), if_neg (by omega), if_neg (by omega)]
        simp only [List.nil_append]
        have hieq : i = bi := by omega
        have hjeq : j = bj := by omega
        rw [hieq, hjeq]
        exact heqop

/-- Every opcode list produced by the matcher is well-formed. -/
theorem getOpcodes_ok (a b : List α) : OpsOK a b 0 0 (getOpcodes a b) := by
  unfold getOpcodes getMatchingBlocks
  exact opcodesAux_ok _ 0 0 (mergedBlocks_chained a b)

end EpubDiff

namespace EpubDiff

/-! ## Character-diff round trip -/

variable {α : Type} [DecidableEq α]

/-- The text of a list of spans, concatenated. -/
def spansText (sp : List Span) : List Char := (sp.map Span.text).flatten

theorem spansText_append (x y : List Span) :
    spansText (x ++ y) = spansText x ++ spansText y := by
  simp [spansText]

theorem sliceL_append_drop {l : List α} {i m : Nat} (h1 : i ≤ m) :
    sliceL l i m ++ l.drop m = l.drop i := by
  unfold sliceL
  have h2 : l.drop m = (l.drop i).drop (m - i) := by
    rw [List.drop_drop]
    congr 1
    omega
  rw [h2]
  exact List.take_append_drop _ _

theorem opsLeftText {t1 t2 : List Char} :
    ∀ {i j : Nat} {ops : List Opcode}, OpsOK t1 t2 i j ops →
      spansText (ops.flatMap (highlightOpLeft t1)) = t1.drop i := by
  intro i j ops h
  induction h with
  | nil => simp [spansText, List.drop_length]
  | @cons i j oc rest h1 h2 h3 h4 h5 h6 heqc hdel hins hrep hrest ih =>
    rw [List.flatMap_cons, spansText_append, ih]
    rw [← h1]
    cases htag : oc.tag with
    | equal =>
      simp only [highlightOpLeft, htag, spansText, List.map_cons, List.map_nil,
        List.flatten]
      simpa using sliceL_append_drop h3
    | del =>
      simp only [highlightOpLeft, htag, spansText, List.map_cons, List.map_nil,
        List.flatten]
      simpa using sliceL_append_drop h3
    | rep =>
      simp only [highlightOpLeft, htag, spansText, List.map_cons, List.map_nil,
        List.flatten]
      simpa using sliceL_append_drop h3
    | ins =>
      rcases hins htag with ⟨hi2, -⟩
      simp only [highlightOpLeft, htag, spansText, List.map_nil, List.flatten]
      rw [hi2]
      simp

theorem opsRightText {t1 t2 : List Char} :
    ∀ {i j : Nat} {ops : List Opcode}, OpsOK t1 t2 i j ops →
      spansText (ops.flatMap (highlightOpRight t2)) = t2.drop j := by
  intro i j ops h
  induction h with
  | nil => simp [spansText, List.drop_length]
  | @cons i j oc rest h1 h2 h3 h4 h5 h6 heqc hdel hins hrep hrest ih =>
    rw [List.flatMap_cons, spansText_append, ih]
    rw [← h2]
    cases htag : oc.tag with
    | equal =>
      simp only [highlightOpRight, htag, spansText, List.map_cons, List.map_nil,
        List.flatten]
      simpa using sliceL_append_drop h4
    | ins =>
      simp only [highlightOpRight, htag, spansText, List.map_cons, List.map_nil,
        List.flatten]
      simpa using sliceL_append_drop h4
    | rep =>
      simp only [highlightOpRight, htag, spansText, List.map_cons, List.map_nil,
        List.flatten]
      simpa using sliceL_append_drop h4
    | del =>
      rcases hdel htag with ⟨hj2, -⟩
      simp only [highlightOpRight, htag, spansText, List.map_nil, List.flatten]
      rw [hj2]
      simp

end EpubDiff

namespace EpubDiff

/-! ## Coverage of the paragraph aligners -/

variable {α : Type} [DecidableEq α]

/-- Old-side positions referenced by a `compare_paragraphs` result list. -/
def oldRefs (rs : List DiffResult) : List Nat := rs.filterMap DiffResult.old_idx

/-- New-side positions referenced by a `compare_paragraphs` result list. -/
def newRefs (rs : List DiffResult) : List Nat := rs.filterMap DiffResult.new_idx

/-- Old-side positions referenced by an `align` row list. -/
def oldRefsA (rs : List AlignedRow) : List Nat := rs.filterMap AlignedRow.old_idx

/-- New-side positions referenced by an `align` row list. -/
def newRefsA (rs : List AlignedRow) : List Nat := rs.filterMap AlignedRow.new_idx

theorem oldRefs_append (x y : List DiffResult) :
    oldRefs (x ++ y) = oldRefs x ++ oldRefs y := by simp [oldRefs]

theorem newRefs_append (x y : List DiffResult) :
    newRefs (x ++ y) = newRefs x ++ newRefs y := by simp [newRefs]

theorem oldRefsA_append (x y : List AlignedRow) :
    oldRefsA (x ++ y) = oldRefsA x ++ oldRefsA y := by simp [oldRefsA]

theorem newRefsA_append (x y : List AlignedRow) :
    newRefsA (x ++ y) = newRefsA x ++ newRefsA y := by simp [newRefsA]

theorem range'_glue (m : Nat) : ∀ (s n : Nat),
    List.range' s m ++ List.range' (s + m) n = List.range' s (m + n) := by
  induction m with
  | zero => intro s n; simp
  | succ k ih =>
    intro s n
    rw [List.range'_succ]
    have h1 : s + (k + 1) = s + 1 + k := by omega
    have h2 : k + 1 + n = k + n + 1 := by omega
    rw [h1, h2, List.range'_succ]
    simp only [List.cons_append]
    rw [ih (s + 1) n]

theorem map_shift_range' : ∀ (cnt s d : Nat),
    (List.range' s cnt).map (fun x => x - s + d) = List.range' d cnt := by
  intro cnt
  induction cnt with
  | zero => intro s d; simp
  | succ k ih =>
    intro s d
    rw [List.range'_succ, List.range'_succ, List.map_cons]
    have h1 : s - s + d = d := by omega
    rw [h1]
    congr 1
    have h2 : (List.range' (s + 1) k).map (fun x => x - s + d) =
        (List.range' (s + 1) k).map (fun x => x - (s + 1) + (d + 1)) := by
      apply List.map_congr_left
      intro x hx
      have hb := (List.mem_range'_1.mp hx).1
      omega
    rw [h2, ih]

theorem map_succ_range' (cnt s : Nat) :
    (List.range' s cnt).map (fun x => x + 1) = List.range' (s + 1) cnt := by
  have h := map_shift_range' cnt s (s + 1)
  have h2 : (List.range' s cnt).map (fun x => x + 1) =
      (List.range' s cnt).map (fun x => x - s + (s + 1)) := by
    apply List.map_congr_left
    intro x hx
    have hb := (List.mem_range'_1.mp hx).1
    omega
  rw [h2, h]

theorem filterMap_some_eq_map {β γ : Type} (f : β → γ) (l : List β) :
    l.filterMap (fun x => some (f x)) = l.map f := by
  induction l with
  | nil => simp
  | cons x xs ih => simp [List.filterMap_cons, ih]

theorem truthy_some_iff (p : Para) : truthy (some p) = true ↔ p ≠ [] := by
  cases p <;> simp [truthy]

theorem sliceL_length {l : List α} {i m : Nat} (h2 : m ≤ l.length) :
    (sliceL l i m).length = m - i := by
  unfold sliceL
  rw [List.length_take, List.length_drop]
  omega

theorem sliceL_mem {l : List α} {i m : Nat} {x : α} (h : x ∈ sliceL l i m) : x ∈ l :=
  List.mem_of_mem_drop (List.mem_of_mem_take h)

/-- Positions referenced by the replace branch of `compare_paragraphs`, when
every unit is a non-empty string: each paired or leftover old unit yields
exactly its own old position, in order, and likewise on the new side. -/
theorem cmpRepl_refs (oldb newb : List Para) (i1 j1 : Nat) (minSim : ℚ)
    (hold : ∀ p ∈ oldb, p ≠ []) (hnew : ∀ p ∈ newb, p ≠ []) :
    ∀ (cnt s : Nat), s + cnt = max oldb.length newb.length →
      oldRefs ((List.range' s cnt).flatMap (cmpReplPair oldb newb i1 j1 minSim)) =
          List.range' (i1 + s + 1) (oldb.length - s) ∧
      newRefs ((List.range' s cnt).flatMap (cmpReplPair oldb newb i1 j1 minSim)) =
          List.range' (j1 + s + 1) (newb.length - s) := by
  intro cnt
  induction cnt with
  | zero =>
    intro s hs
    have ho : oldb.length - s = 0 := by omega
    have hn : newb.length - s = 0 := by omega
    rw [ho, hn]
    simp [oldRefs, newRefs]
  | succ k ih =>
    intro s hs
    rw [List.range'_succ, List.flatMap_cons, oldRefs_append, newRefs_append]
    rcases ih (s + 1) (by omega) with ⟨iho, ihn⟩
    by_cases hso : s < oldb.length
    · have hgo := List.get?_eq_get hso
      set o := oldb.get ⟨s, hso⟩ with hodef
      have hto : truthy (some o) = true :=
        (truthy_some_iff o).mpr (hold o (List.get?_mem hgo))
      by_cases hsn : s < newb.length
      · have hgn := List.get?_eq_get hsn
        set nn := newb.get ⟨s, hsn⟩ with hnndef
        have htn : truthy (some nn) = true :=
          (truthy_some_iff nn).mpr (hnew nn (List.get?_mem hgn))
        simp only [cmpReplPair]
        rw [hgo, hgn, if_pos ⟨hto, htn⟩]
        by_cases hr : minSim < ratioQ ((some o).getD []) ((some nn).getD [])
        · rw [if_pos hr]
          constructor
          · rw [iho]
            simp only [oldRefs, List.filterMap_cons, List.filterMap_nil]
            rw [show oldb.length - s = oldb.length - (s + 1) + 1 by omega,
              List.range'_succ]
            rfl
          · rw [ihn]
            simp only [newRefs, List.filterMap_cons, List.filterMap_nil]
            rw [show newb.length - s = newb.length - (s + 1) + 1 by omega,
              List.range'_succ]
            rfl
        · rw [if_neg hr]
          constructor
          · rw [iho]
            simp only [oldRefs, List.filterMap_cons, List.filterMap_nil]
            rw [show oldb.length - s = oldb.length - (s + 1) + 1 by omega,
              List.range'_succ]
            rfl
          · rw [ihn]
            simp only [newRefs, List.filterMap_cons, List.filterMap_nil]
            rw [show newb.length - s = newb.length - (s + 1) + 1 by omega,
              List.range'_succ]
            rfl
      · have hgn : newb.get? s = none := List.get?_eq_none.mpr (by omega)
        simp only [cmpReplPair]
        rw [hgo, hgn]
        rw [if_neg (show ¬(truthy (some o) = true ∧ truthy none = true) from
          fun hcon => by exact absurd hcon.2 (by simp [truthy]))]
        rw [if_pos hto]
        constructor
        · rw [iho]
          simp only [oldRefs, List.filterMap_cons, List.filterMap_nil]
          rw [show oldb.length - s = oldb.length - (s + 1) + 1 by omega,
            List.range'_succ]
          rfl
        · rw [ihn]
          simp only [newRefs, List.filterMap_cons, List.filterMap_nil]
          rw [show newb.length - s = 0 by omega,
            show newb.length - (s + 1) = 0 by omega]
          simp
    · have hgo : oldb.get? s = none := List.get?_eq_none.mpr (by omega)
      have hsn : s < newb.length := by omega
      have hgn := List.get?_eq_get hsn
      set nn := newb.get ⟨s, hsn⟩ with hnndef
      have htn : truthy (some nn) = true :=
        (truthy_some_iff nn).mpr (hnew nn (List.get?_mem hgn))
      simp only [cmpReplPair]
      rw [hgo, hgn]
      rw [if_neg (show ¬(truthy (none : Option Para) = true ∧
          truthy (some nn) = true) from
        fun hcon => by exact absurd hcon.1 (by simp [truthy]))]
      rw [if_neg (show ¬truthy (none : Option Para) = true from by simp [truthy])]
      rw [if_pos htn]
      constructor
      · rw [iho]
        simp only [oldRefs, List.filterMap_cons, List.filterMap_nil]
        rw [show oldb.length - s = 0 by omega,
          show oldb.length - (s + 1) = 0 by omega]
        simp
      · rw [ihn]
        simp only [newRefs, List.filterMap_cons, List.filterMap_nil]
        rw [show newb.length - s = newb.length - (s + 1) + 1 by omega,
          List.range'_succ]
        rfl

/-- Positions referenced by the replace branch of epub_simple_diff_cli's
`align`, when every unit is a non-empty string. -/
theorem alignRepl_refs (oldb newb : List Para) (i1 j1 : Nat)
    (hold : ∀ p ∈ oldb, p ≠ []) (hnew : ∀ p ∈ newb, p ≠ []) :
    ∀ (cnt s : Nat), s + cnt = max oldb.length newb.length →
      oldRefsA ((List.range' s cnt).flatMap (alignReplPair oldb newb i1 j1)) =
          List.range' (i1 + s + 1) (oldb.length - s) ∧
      newRefsA ((List.range' s cnt).flatMap (alignReplPair oldb newb i1 j1)) =
          List.range' (j1 + s + 1) (newb.length - s) := by
  intro cnt
  induction cnt with
  | zero =>
    intro s hs
    have ho : oldb.length - s = 0 := by omega
    have hn : newb.length - s = 0 := by omega
    rw [ho, hn]
    simp [oldRefsA, newRefsA]
  | succ k ih =>
    intro s hs
    rw [List.range'_succ, List.flatMap_cons, oldRefsA_append, newRefsA_append]
    rcases ih (s + 1) (by omega) with ⟨iho, ihn⟩
    by_cases hso : s < oldb.length
    · have hgo := List.get?_eq_get hso
      set o := oldb.get ⟨s, hso⟩ with hodef
      have hto : truthy (some o) = true :=
        (truthy_some_iff o).mpr (hold o (List.get?_mem hgo))
      by_cases hsn : s < newb.length
      · have hgn := List.get?_eq_get hsn
        set nn := newb.get ⟨s, hsn⟩ with hnndef
        have htn : truthy (some nn) = true :=
          (truthy_some_iff nn).mpr (hnew nn (List.get?_mem hgn))
        simp only [alignReplPair]
        rw [hgo, hgn, if_pos ⟨hto, htn⟩]
        constructor
        · rw [iho]
          simp only [oldRefsA, List.filterMap_cons, List.filterMap_nil]
          rw [show oldb.length - s = oldb.length - (s + 1) + 1 by omega,
            List.range'_succ]
          rfl
        · rw [ihn]
          simp only [newRefsA, List.filterMap_cons, List.filterMap_nil]
          rw [show newb.length - s = newb.length - (s + 1) + 1 by omega,
            List.range'_succ]
          rfl
      · have hgn : newb.get? s = none := List.get?_eq_none.mpr (by omega)
        simp only [alignReplPair]
        rw [hgo, hgn]
        rw [if_neg (show ¬(truthy (some o) = true ∧ truthy none = true) from
          fun hcon => by exact absurd hcon.2 (by simp [truthy]))]
        rw [if_pos hto]
        constructor
        · rw [iho]
          simp only [oldRefsA, List.filterMap_cons, List.filterMap_nil]
          rw [show oldb.length - s = oldb.length - (s + 1) + 1 by omega,
            List.range'_succ]
          rfl
        · rw [ihn]
          simp only [newRefsA, List.filterMap_cons, List.filterMap_nil]
          rw [show newb.length - s = 0 by omega,
            show newb.length - (s + 1) = 0 by omega]
          simp
    · have hgo : oldb.get? s = none := List.get?_eq_none.mpr (by omega)
      have hsn : s < newb.length := by omega
      have hgn := List.get?_eq_get hsn
      set nn := newb.get ⟨s, hsn⟩ with hnndef
      simp only [alignReplPair]
      rw [hgo, hgn]
      rw [if_neg (show ¬(truthy (none : Option Para) = true ∧
          truthy (some nn) = true) from
        fun hcon => by exact absurd hcon.1 (by simp [truthy]))]
      rw [if_neg (show ¬truthy (none : Option Para) = true from by simp [truthy])]
      constructor
      · rw [iho]
        simp only [oldRefsA, List.filterMap_cons, List.filterMap_nil]
        rw [show oldb.length - s = 0 by omega,
          show oldb.length - (s + 1) = 0 by omega]
        simp
      · rw [ihn]
        simp only [newRefsA, List.filterMap_cons, List.filterMap_nil]
        rw [show newb.length - s = newb.length - (s + 1) + 1 by omega,
          List.range'_succ]
        rfl

end EpubDiff

namespace EpubDiff

variable {α : Type} [DecidableEq α]

/-- Walking a well-formed opcode list, `compare_paragraphs` references every
old position and every new position from the cursor on exactly once, in
order, provided every unit is a non-empty string. -/
theorem cmpOps_refs {p1 p2 : List Para} {minSim : ℚ}
    (hp1 : ∀ p ∈ p1, p ≠ []) (hp2 : ∀ p ∈ p2, p ≠ []) :
    ∀ {i j : Nat} {ops : List Opcode}, OpsOK p1 p2 i j ops →
      oldRefs (ops.flatMap (cmpOp p1 p2 minSim)) =
          List.range' (i + 1) (p1.length - i) ∧
      newRefs (ops.flatMap (cmpOp p1 p2 minSim)) =
          List.range' (j + 1) (p2.length - j) := by
  intro i j ops h
  induction h with
  | nil =>
    constructor
    · rw [show p1.length - p1.length = 0 by omega]
      simp [oldRefs]
    · rw [show p2.length - p2.length = 0 by omega]
      simp [newRefs]
  | @cons i j oc rest h1 h2 h3 h4 h5 h6 heqc hdel hins hrep hrest ih =>
    rw [List.flatMap_cons, oldRefs_append, newRefs_append, ih.1, ih.2]
    subst h1
    subst h2
    cases htag : oc.tag with
    | equal =>
      rcases heqc htag with ⟨hlen, hpos, -⟩
      have hoc : oldRefs (cmpOp p1 p2 minSim oc) =
          List.range' (oc.i1 + 1) (oc.i2 - oc.i1) := by
        simp only [cmpOp, htag, oldRefs, List.filterMap_map]
        have : (fun idx => (DiffResult.old_idx
            ⟨DType.same, p1.get? idx, p2.get? (idx - oc.i1 + oc.j1),
              some (idx + 1), some (idx - oc.i1 + oc.j1 + 1), none⟩)) =
            (fun idx => some (idx + 1)) := rfl
        rw [show DiffResult.old_idx ∘ (fun idx =>
            (⟨DType.same, p1.get? idx, p2.get? (idx - oc.i1 + oc.j1),
              some (idx + 1), some (idx - oc.i1 + oc.j1 + 1), none⟩ : DiffResult)) =
            fun idx => some (idx + 1) from rfl]
        rw [filterMap_some_eq_map, map_succ_range']
      have hnc : newRefs (cmpOp p1 p2 minSim oc) =
          List.range' (oc.j1 + 1) (oc.i2 - oc.i1) := by
        simp only [cmpOp, htag, newRefs, List.filterMap_map]
        rw [show DiffResult.new_idx ∘ (fun idx =>
            (⟨DType.same, p1.get? idx, p2.get? (idx - oc.i1 + oc.j1),
              some (idx + 1), some (idx - oc.i1 + oc.j1 + 1), none⟩ : DiffResult)) =
            fun idx => some (idx - oc.i1 + oc.j1 + 1) from rfl]
        rw [filterMap_some_eq_map]
        have hfun : (List.range' oc.i1 (oc.i2 - oc.i1)).map
            (fun idx => idx - oc.i1 + oc.j1 + 1) =
            (List.range' oc.i1 (oc.i2 - oc.i1)).map
              (fun idx => idx - oc.i1 + (oc.j1 + 1)) := by
          apply List.map_congr_left
          intro x hx
          omega
        rw [hfun, map_shift_range']
      rw [hoc, hnc]
      constructor
      · have hg := range'_glue (oc.i2 - oc.i1) (oc.i1 + 1) (p1.length - oc.i2)
        rw [show oc.i1 + 1 + (oc.i2 - oc.i1) = oc.i2 + 1 by omega] at hg
        rw [hg]
        congr 1
        omega
      · rw [show oc.j2 = oc.j1 + (oc.i2 - oc.i1) by omega]
        have := range'_glue (oc.i2 - oc.i1) (oc.j1 + 1) (p2.length - (oc.j1 + (oc.i2 - oc.i1)))
        rw [show oc.j1 + 1 + (oc.i2 - oc.i1) = oc.j1 + (oc.i2 - oc.i1) + 1 by omega] at this
        rw [this]
        congr 1
        omega
    | del =>
      rcases hdel htag with ⟨hj2, hlt⟩
      have hoc : oldRefs (cmpOp p1 p2 minSim oc) =
          List.range' (oc.i1 + 1) (oc.i2 - oc.i1) := by
        simp only [cmpOp, htag, oldRefs, List.filterMap_map]
        rw [show DiffResult.old_idx ∘ (fun idx =>
            (⟨DType.deleted, p1.get? idx, none, some (idx + 1), none, none⟩ : DiffResult)) =
            fun idx => some (idx + 1) from rfl]
        rw [filterMap_some_eq_map, map_succ_range']
      have hnc : newRefs (cmpOp p1 p2 minSim oc) = [] := by
        simp only [cmpOp, htag, newRefs, List.filterMap_map]
        rw [show DiffResult.new_idx ∘ (fun idx =>
            (⟨DType.deleted, p1.get? idx, none, some (idx + 1), none, none⟩ : DiffResult)) =
            fun _ => (none : Option Nat) from rfl]
        simp
      rw [hoc, hnc, hj2]
      constructor
      · have := range'_glue (oc.i2 - oc.i1) (oc.i1 + 1) (p1.length - oc.i2)
        rw [show oc.i1 + 1 + (oc.i2 - oc.i1) = oc.i2 + 1 by omega] at this
        rw [this]
        congr 1
        omega
      · simp
    | ins =>
      rcases hins htag with ⟨hi2, hlt⟩
      have hoc : oldRefs (cmpOp p1 p2 minSim oc) = [] := by
        simp only [cmpOp, htag, oldRefs, List.filterMap_map]
        rw [show DiffResult.old_idx ∘ (fun idx =>
            (⟨DType.added, none, p2.get? idx, none, some (idx + 1), none⟩ : DiffResult)) =
            fun _ => (none : Option Nat) from rfl]
        simp
      have hnc : newRefs (cmpOp p1 p2 minSim oc) =
          List.range' (oc.j1 + 1) (oc.j2 - oc.j1) := by
        simp only [cmpOp, htag, newRefs, List.filterMap_map]
        rw [show DiffResult.new_idx ∘ (fun idx =>
            (⟨DType.added, none, p2.get? idx, none, some (idx + 1), none⟩ : DiffResult)) =
            fun idx => some (idx + 1) from rfl]
        rw [filterMap_some_eq_map, map_succ_range']
      rw [hoc, hnc, hi2]
      constructor
      · simp
      · have := range'_glue (oc.j2 - oc.j1) (oc.j1 + 1) (p2.length - oc.j2)
        rw [show oc.j1 + 1 + (oc.j2 - oc.j1) = oc.j2 + 1 by omega] at this
        rw [this]
        congr 1
        omega
    | rep =>
      rcases hrep htag with ⟨hlt1, hlt2⟩
      have hlen1 : (sliceL p1 oc.i1 oc.i2).length = oc.i2 - oc.i1 := sliceL_length h5
      have hlen2 : (sliceL p2 oc.j1 oc.j2).length = oc.j2 - oc.j1 := sliceL_length h6
      have hne1 : ∀ p ∈ sliceL p1 oc.i1 oc.i2, p ≠ [] :=
        fun p hp => hp1 p (sliceL_mem hp)
      have hne2 : ∀ p ∈ sliceL p2 oc.j1 oc.j2, p ≠ [] :=
        fun p hp => hp2 p (sliceL_mem hp)
      have hre := cmpRepl_refs (sliceL p1 oc.i1 oc.i2) (sliceL p2 oc.j1 oc.j2)
        oc.i1 oc.j1 minSim hne1 hne2
        (max (sliceL p1 oc.i1 oc.i2).length (sliceL p2 oc.j1 oc.j2).length) 0 (by omega)
      have hco : cmpOp p1 p2 minSim oc =
          (List.range' 0 (max (sliceL p1 oc.i1 oc.i2).length
            (sliceL p2 oc.j1 oc.j2).length)).flatMap
            (cmpReplPair (sliceL p1 oc.i1 oc.i2) (sliceL p2 oc.j1 oc.j2)
              oc.i1 oc.j1 minSim) := by
        simp only [cmpOp, htag, replaceBlock, List.range_eq_range']
      rw [hco, hre.1, hre.2, hlen1, hlen2]
      constructor
      · have := range'_glue (oc.i2 - oc.i1) (oc.i1 + 0 + 1) (p1.length - oc.i2)
        rw [show oc.i1 + 0 + 1 + (oc.i2 - oc.i1) = oc.i2 + 1 by omega] at this
        rw [show oc.i2 - oc.i1 - 0 = oc.i2 - oc.i1 by omega, this]
        congr 1
        omega
      · have := range'_glue (oc.j2 - oc.j1) (oc.j1 + 0 + 1) (p2.length - oc.j2)
        rw [show oc.j1 + 0 + 1 + (oc.j2 - oc.j1) = oc.j2 + 1 by omega] at this
        rw [show oc.j2 - oc.j1 - 0 = oc.j2 - oc.j1 by omega, this]
        congr 1
        omega

end EpubDiff

namespace EpubDiff

/-- Walking a well-formed opcode list, epub_simple_diff_cli's `align`
references every old and every new position from the cursor on exactly once,
in order, provided every unit is a non-empty string. -/
theorem alignOps_refs {p1 p2 : List Para}
    (hp1 : ∀ p ∈ p1, p ≠ []) (hp2 : ∀ p ∈ p2, p ≠ []) :
    ∀ {i j : Nat} {ops : List Opcode}, OpsOK p1 p2 i j ops →
      oldRefsA (ops.flatMap (alignOp p1 p2)) =
          List.range' (i + 1) (p1.length - i) ∧
      newRefsA (ops.flatMap (alignOp p1 p2)) =
          List.range' (j + 1) (p2.length - j) := by
  intro i j ops h
  induction h with
  | nil =>
    constructor
    · rw [show p1.length - p1.length = 0 by omega]
      simp [oldRefsA]
    · rw [show p2.length - p2.length = 0 by omega]
      simp [newRefsA]
  | @cons i j oc rest h1 h2 h3 h4 h5 h6 heqc hdel hins hrep hrest ih =>
    rw [List.flatMap_cons, oldRefsA_append, newRefsA_append, ih.1, ih.2]
    subst h1
    subst h2
    cases htag : oc.tag with
    | equal =>
      rcases heqc htag with ⟨hlen, hpos, -⟩
      have hoc : oldRefsA (alignOp p1 p2 oc) =
          List.range' (oc.i1 + 1) (oc.i2 - oc.i1) := by
        simp only [alignOp, htag, oldRefsA, List.filterMap_map]
        rw [show AlignedRow.old_idx ∘ (fun k =>
            (⟨RowTag.same, p1.get? (oc.i1 + k), p2.get? (oc.j1 + k),
              some (oc.i1 + k + 1), some (oc.j1 + k + 1)⟩ : AlignedRow)) =
            fun k => some (oc.i1 + k + 1) from rfl]
        rw [filterMap_some_eq_map, List.range_eq_range']
        have hfun : (List.range' 0 (oc.i2 - oc.i1)).map (fun k => oc.i1 + k + 1) =
            (List.range' 0 (oc.i2 - oc.i1)).map (fun k => k - 0 + (oc.i1 + 1)) := by
          apply List.map_congr_left
          intro x hx
          omega
        rw [hfun, map_shift_range']
      have hnc : newRefsA (alignOp p1 p2 oc) =
          List.range' (oc.j1 + 1) (oc.i2 - oc.i1) := by
        simp only [alignOp, htag, newRefsA, List.filterMap_map]
        rw [show AlignedRow.new_idx ∘ (fun k =>
            (⟨RowTag.same, p1.get? (oc.i1 + k), p2.get? (oc.j1 + k),
              some (oc.i1 + k + 1), some (oc.j1 + k + 1)⟩ : AlignedRow)) =
            fun k => some (oc.j1 + k + 1) from rfl]
        rw [filterMap_some_eq_map, List.range_eq_range']
        have hfun : (List.range' 0 (oc.i2 - oc.i1)).map (fun k => oc.j1 + k + 1) =
            (List.range' 0 (oc.i2 - oc.i1)).map (fun k => k - 0 + (oc.j1 + 1)) := by
          apply List.map_congr_left
          intro x hx
          omega
        rw [hfun, map_shift_range']
      rw [hoc, hnc]
      constructor
      · have hg := range'_glue (oc.i2 - oc.i1) (oc.i1 + 1) (p1.length - oc.i2)
        rw [show oc.i1 + 1 + (oc.i2 - oc.i1) = oc.i2 + 1 by omega] at hg
        rw [hg]
        congr 1
        omega
      · rw [show oc.j2 = oc.j1 + (oc.i2 - oc.i1) by omega]
        have hg := range'_glue (oc.i2 - oc.i1) (oc.j1 + 1)
          (p2.length - (oc.j1 + (oc.i2 - oc.i1)))
        rw [show oc.j1 + 1 + (oc.i2 - oc.i1) = oc.j1 + (oc.i2 - oc.i1) + 1 by omega] at hg
        rw [hg]
        congr 1
        omega
    | del =>
      rcases hdel htag with ⟨hj2, hlt⟩
      have hoc : oldRefsA (alignOp p1 p2 oc) =
          List.range' (oc.i1 + 1) (oc.i2 - oc.i1) := by
        simp only [alignOp, htag, oldRefsA, List.filterMap_map]
        rw [show AlignedRow.old_idx ∘ (fun k =>
            (⟨RowTag.del, p1.get? k, none, some (k + 1), none⟩ : AlignedRow)) =
            fun k => some (k + 1) from rfl]
        rw [filterMap_some_eq_map, map_succ_range']
      have hnc : newRefsA (alignOp p1 p2 oc) = [] := by
        simp only [alignOp, htag, newRefsA, List.filterMap_map]
        rw [show AlignedRow.new_idx ∘ (fun k =>
            (⟨RowTag.del, p1.get? k, none, some (k + 1), none⟩ : AlignedRow)) =
            fun _ => (none : Option Nat) from rfl]
        simp
      rw [hoc, hnc, hj2]
      constructor
      · have hg := range'_glue (oc.i2 - oc.i1) (oc.i1 + 1) (p1.length - oc.i2)
        rw [show oc.i1 + 1 + (oc.i2 - oc.i1) = oc.i2 + 1 by omega] at hg
        rw [hg]
        congr 1
        omega
      · simp
    | ins =>
      rcases hins htag with ⟨hi2, hlt⟩
      have hoc : oldRefsA (alignOp p1 p2 oc) = [] := by
        simp only [alignOp, htag, oldRefsA, List.filterMap_map]
        rw [show AlignedRow.old_idx ∘ (fun k =>
            (⟨RowTag.add, none, p2.get? k, none, some (k + 1)⟩ : AlignedRow)) =
            fun _ => (none : Option Nat) from rfl]
        simp
      have hnc : newRefsA (alignOp p1 p2 oc) =
          List.range' (oc.j1 + 1) (oc.j2 - oc.j1) := by
        simp only [alignOp, htag, newRefsA, List.filterMap_map]
        rw [show AlignedRow.new_idx ∘ (fun k =>
            (⟨RowTag.add, none, p2.get? k, none, some (k + 1)⟩ : AlignedRow)) =
            fun k => some (k + 1) from rfl]
        rw [filterMap_some_eq_map, map_succ_range']
      rw [hoc, hnc, hi2]
      constructor
      · simp
      · have hg := range'_glue (oc.j2 - oc.j1) (oc.j1 + 1) (p2.length - oc.j2)
        rw [show oc.j1 + 1 + (oc.j2 - oc.j1) = oc.j2 + 1 by omega] at hg
        rw [hg]
        congr 1
        omega
    | rep =>
      rcases hrep htag with ⟨hlt1, hlt2⟩
      have hlen1 : (sliceL p1 oc.i1 oc.i2).length = oc.i2 - oc.i1 := sliceL_length h5
      have hlen2 : (sliceL p2 oc.j1 oc.j2).length = oc.j2 - oc.j1 := sliceL_length h6
      have hne1 : ∀ p ∈ sliceL p1 oc.i1 oc.i2, p ≠ [] :=
        fun p hp => hp1 p (sliceL_mem hp)
      have hne2 : ∀ p ∈ sliceL p2 oc.j1 oc.j2, p ≠ [] :=
        fun p hp => hp2 p (sliceL_mem hp)
      have hre := alignRepl_refs (sliceL p1 oc.i1 oc.i2) (sliceL p2 oc.j1 oc.j2)
        oc.i1 oc.j1 hne1 hne2
        (max (sliceL p1 oc.i1 oc.i2).length (sliceL p2 oc.j1 oc.j2).length) 0 (by omega)
      have hco : alignOp p1 p2 oc =
          (List.range' 0 (max (sliceL p1 oc.i1 oc.i2).length
            (sliceL p2 oc.j1 oc.j2).length)).flatMap
            (alignReplPair (sliceL p1 oc.i1 oc.i2) (sliceL p2 oc.j1 oc.j2)
              oc.i1 oc.j1) := by
        simp only [alignOp, htag, List.range_eq_range']
      rw [hco, hre.1, hre.2, hlen1, hlen2]
      constructor
      · have hg := range'_glue (oc.i2 - oc.i1) (oc.i1 + 0 + 1) (p1.length - oc.i2)
        rw [show oc.i1 + 0 + 1 + (oc.i2 - oc.i1) = oc.i2 + 1 by omega] at hg
        rw [show oc.i2 - oc.i1 - 0 = oc.i2 - oc.i1 by omega, hg]
        congr 1
        omega
      · have hg := range'_glue (oc.j2 - oc.j1) (oc.j1 + 0 + 1) (p2.length - oc.j2)
        rw [show oc.j1 + 0 + 1 + (oc.j2 - oc.j1) = oc.j2 + 1 by omega] at hg
        rw [show oc.j2 - oc.j1 - 0 = oc.j2 - oc.j1 by omega, hg]
        congr 1
        omega

end EpubDiff

namespace EpubDiff

variable {α : Type} [DecidableEq α]

theorem eqAt_get? {a b : List α} {x y : Nat} (h : eqAt a b x y = true) :
    a.get? x = b.get? y ∧ (a.get? x).isSome = true := by
  unfold eqAt at h
  cases hax : a.get? x <;> cases hby : b.get? y <;> rw [hax, hby] at h
  · simp at h
  · simp at h
  · simp at h
  · simp only [decide_eq_true_eq] at h
    subst h
    simp

theorem Chained.sum_le {a b : List α} {alo blo ahi bhi : Nat}
    {bl : List (Nat × Nat × Nat)} (h : Chained a b alo blo bl ahi bhi) :
    alo + (bl.map (fun t => t.2.2)).sum ≤ ahi ∧
      blo + (bl.map (fun t => t.2.2)).sum ≤ bhi := by
  induction h with
  | nil h1 h2 => simp; omega
  | cons h1 h2 h3 _ _ ih =>
    simp only [List.map_cons, List.sum_cons]
    omega

/-- The total matched size never exceeds either input's length. -/
theorem totalMatches_le (a b : List α) :
    totalMatches a b ≤ a.length ∧ totalMatches a b ≤ b.length := by
  have h := (mergedBlocks_chained a b).sum_le
  unfold totalMatches getMatchingBlocks
  rw [List.map_append, List.sum_append]
  simp only [List.map_cons, List.map_nil, List.sum_cons, List.sum_nil]
  omega

/-- Rows emitted by `align`'s replace loop are never tagged `same`. -/
theorem alignReplPair_not_same (oldb newb : List Para) (i1 j1 idx : Nat) :
    ∀ r ∈ alignReplPair oldb newb i1 j1 idx, r.tag ≠ RowTag.same := by
  intro r hr
  simp only [alignReplPair] at hr
  split_ifs at hr <;> simp at hr <;> rw [hr] <;> exact fun hcon => nomatch hcon

/-- Every `same` row of `align` pairs two literally equal units (difflib
compares the paragraph strings with `==`; no normalization is involved). -/
theorem alignOps_same_literal {p1 p2 : List Para} :
    ∀ {i j : Nat} {ops : List Opcode}, OpsOK p1 p2 i j ops →
      ∀ r ∈ ops.flatMap (alignOp p1 p2), r.tag = RowTag.same →
        r.old = r.new ∧ r.old.isSome = true := by
  intro i j ops h
  induction h with
  | nil => intro r hr; simp at hr
  | @cons i j oc rest h1 h2 h3 h4 h5 h6 heqc hdel hins hrep hrest ih =>
    intro r hr htag
    rw [List.flatMap_cons] at hr
    rcases List.mem_append.mp hr with hhead | htail
    · cases hoctag : oc.tag with
      | equal =>
        rcases heqc hoctag with ⟨-, -, hrun⟩
        simp only [alignOp, hoctag] at hhead
        rcases List.mem_map.mp hhead with ⟨k, hk, hrow⟩
        have hk' := List.mem_range.mp hk
        rcases eqAt_get? (hrun k hk') with ⟨hget, hsome⟩
        rw [← hrow]
        exact ⟨by simpa using hget, by simpa using hsome⟩
      | del =>
        simp only [alignOp, hoctag] at hhead
        rcases List.mem_map.mp hhead with ⟨k, -, hrow⟩
        rw [← hrow] at htag
        exact nomatch htag
      | ins =>
        simp only [alignOp, hoctag] at hhead
        rcases List.mem_map.mp hhead with ⟨k, -, hrow⟩
        rw [← hrow] at htag
        exact nomatch htag
      | rep =>
        simp only [alignOp, hoctag] at hhead
        rcases List.mem_flatMap.mp hhead with ⟨k, -, hmem⟩
        exact absurd htag (alignReplPair_not_same _ _ _ _ _ r hmem)
    · exact ih r htail htag

/-- Rows emitted by `compare_paragraphs`' replace loop are never `same`. -/
theorem cmpReplPair_not_same (oldb newb : List Para) (i1 j1 : Nat) (minSim : ℚ)
    (idx : Nat) :
    ∀ r ∈ cmpReplPair oldb newb i1 j1 minSim idx, r.dtype ≠ DType.same := by
  intro r hr
  simp only [cmpReplPair] at hr
  split_ifs at hr <;> simp at hr
  · rw [hr]; exact fun hcon => nomatch hcon
  · rcases hr with hr | hr <;> rw [hr] <;> exact fun hcon => nomatch hcon
  · rw [hr]; exact fun hcon => nomatch hcon
  · rw [hr]; exact fun hcon => nomatch hcon

/-- Every `same` result of `compare_paragraphs` pairs two literally equal
units. -/
theorem cmpOps_same_literal {p1 p2 : List Para} {minSim : ℚ} :
    ∀ {i j : Nat} {ops : List Opcode}, OpsOK p1 p2 i j ops →
      ∀ r ∈ ops.flatMap (cmpOp p1 p2 minSim), r.dtype = DType.same →
        r.old = r.new ∧ r.old.isSome = true := by
  intro i j ops h
  induction h with
  | nil => intro r hr; simp at hr
  | @cons i j oc rest h1 h2 h3 h4 h5 h6 heqc hdel hins hrep hrest ih =>
    intro r hr htag
    rw [List.flatMap_cons] at hr
    rcases List.mem_append.mp hr with hhead | htail
    · cases hoctag : oc.tag with
      | equal =>
        rcases heqc hoctag with ⟨-, -, hrun⟩
        simp only [cmpOp, hoctag] at hhead
        rcases List.mem_map.mp hhead with ⟨idx, hk, hrow⟩
        rcases List.mem_range'_1.mp hk with ⟨hk1, hk2⟩
        have hrun' := hrun (idx - oc.i1) (by omega)
        rw [show oc.i1 + (idx - oc.i1) = idx by omega] at hrun'
        rcases eqAt_get? hrun' with ⟨hget, hsome⟩
        rw [← hrow]
        refine ⟨?_, by simpa using hsome⟩
        simp only
        rw [show idx - oc.i1 + oc.j1 = oc.j1 + (idx - oc.i1) by omega]
        exact hget
      | del =>
        simp only [cmpOp, hoctag] at hhead
        rcases List.mem_map.mp hhead with ⟨k, -, hrow⟩
        rw [← hrow] at htag
        exact nomatch htag
      | ins =>
        simp only [cmpOp, hoctag] at hhead
        rcases List.mem_map.mp hhead with ⟨k, -, hrow⟩
        rw [← hrow] at htag
        exact nomatch htag
      | rep =>
        simp only [cmpOp, hoctag, replaceBlock] at hhead
        rcases List.mem_flatMap.mp hhead with ⟨k, -, hmem⟩
        exact absurd htag (cmpReplPair_not_same _ _ _ _ _ _ r hmem)
    · exact ih r htail htag

end EpubDiff

namespace EpubDiff

theorem flatMap_congr_mem {β γ : Type} {l : List β} {f g : β → List γ}
    (h : ∀ x ∈ l, f x = g x) : l.flatMap f = l.flatMap g := by
  induction l with
  | nil => rfl
  | cons x xs ih =>
    rw [List.flatMap_cons, List.flatMap_cons, h x (List.mem_cons_self x xs),
      ih (fun y hy => h y (List.mem_cons_of_mem x hy))]

/-- Which old position (if any) a row of the replace loop can reference. -/
theorem cmpReplPair_old_idx (oldb newb : List Para) (i1 j1 : Nat) (minSim : ℚ)
    (k : Nat) :
    ∀ r ∈ cmpReplPair oldb newb i1 j1 minSim k,
      r.old_idx = none ∨
        (r.old_idx = some (i1 + k + 1) ∧ truthy (oldb.get? k) = true) := by
  intro r hr
  simp only [cmpReplPair] at hr
  split_ifs at hr with hc1 hc2 hc3 hc4 <;> simp at hr
  · rw [hr]; exact Or.inr ⟨rfl, hc1.1⟩
  · rcases hr with hr | hr <;> rw [hr]
    · exact Or.inr ⟨rfl, hc1.1⟩
    · exact Or.inl rfl
  · rw [hr]; exact Or.inr ⟨rfl, hc3⟩
  · rw [hr]; exact Or.inl rfl

/-- C1 counterexample: with an empty-string unit inside a replace block,
coverage fails — `compare_paragraphs(["", "q"], ["r"])` emits no op
referencing old position 1 (the empty unit), so the old side is not covered
exactly once per position. -/
theorem C1_cex :
    compareParagraphs [[], ['q']] [['r']] (1 / 2) =
      [⟨DType.added, none, some ['r'], none, some 1, none⟩,
       ⟨DType.deleted, some ['q'], none, some 2, none, none⟩] ∧
    oldRefs (compareParagraphs [[], ['q']] [['r']] (1 / 2)) = [2] := by
  constructor <;> decide

/-- C1 (amended): provided every unit is a non-empty string, both
`compare_paragraphs` and `align` reference every old position and every new
position exactly once, in order (added ops carry no old position, deleted ops
no new position, same/modified both). -/
theorem C1_coverage (p1 p2 : List Para) (minSim : ℚ)
    (h1 : ∀ p ∈ p1, p ≠ []) (h2 : ∀ p ∈ p2, p ≠ []) :
    oldRefs (compareParagraphs p1 p2 minSim) = List.range' 1 p1.length ∧
    newRefs (compareParagraphs p1 p2 minSim) = List.range' 1 p2.length ∧
    oldRefsA (simpleAlign p1 p2) = List.range' 1 p1.length ∧
    newRefsA (simpleAlign p1 p2) = List.range' 1 p2.length := by
  have hc := @cmpOps_refs p1 p2 minSim h1 h2 0 0 (getOpcodes p1 p2)
    (getOpcodes_ok p1 p2)
  have ha := alignOps_refs h1 h2 (getOpcodes_ok p1 p2)
  rw [Nat.sub_zero, Nat.sub_zero] at hc ha
  exact ⟨hc.1, hc.2, ha.1, ha.2⟩

/-- Witness for C1 at a concrete input. -/
theorem C1_witness :
    oldRefs (compareParagraphs [['a']] [['a'], ['b']] (1 / 2)) = [1] ∧
    newRefsA (simpleAlign [['a']] [['a'], ['b']]) = [1, 2] := by
  have h := C1_coverage [['a']] [['a'], ['b']] (1 / 2) (by decide) (by decide)
  exact ⟨h.1, h.2.2.2⟩

/-- C2 counterexample: the aligner compares units by literal string equality,
not by whitespace-normalized keys — two units that differ only in a
whitespace run have equal normalized keys yet are emitted as a `mod` pair
inside a replace block, not as `same`. -/
theorem C2_cex :
    normalizeKey ['a', ' ', 'b'] = normalizeKey ['a', ' ', ' ', 'b'] ∧
    simpleAlign [['a', ' ', 'b']] [['a', ' ', ' ', 'b']] =
      [⟨RowTag.mod, some ['a', ' ', 'b'], some ['a', ' ', ' ', 'b'],
        some 1, some 1⟩] := by
  constructor <;> decide

/-- C2 (amended): equality for alignment purposes is literal string equality —
every `same` row of `align` and every `same` result of `compare_paragraphs`
carries two literally identical units. -/
theorem C2_literal_equality :
    (∀ (p1 p2 : List Para) (r : AlignedRow), r ∈ simpleAlign p1 p2 →
        r.tag = RowTag.same → r.old = r.new ∧ r.old.isSome = true) ∧
    (∀ (p1 p2 : List Para) (minSim : ℚ) (r : DiffResult),
        r ∈ compareParagraphs p1 p2 minSim →
        r.dtype = DType.same → r.old = r.new ∧ r.old.isSome = true) := by
  constructor
  · intro p1 p2 r hr htag
    exact alignOps_same_literal (getOpcodes_ok p1 p2) r hr htag
  · intro p1 p2 minSim r hr htag
    exact cmpOps_same_literal (getOpcodes_ok p1 p2) r hr htag

/-- Witness for C2 at a concrete input. -/
theorem C2_witness :
    (⟨RowTag.same, some ['a'], some ['a'], some 1, some 1⟩ : AlignedRow).old =
      (⟨RowTag.same, some ['a'], some ['a'], some 1, some 1⟩ : AlignedRow).new :=
  (C2_literal_equality.1 [['a']] [['a']] _ (by decide) rfl).1

/-- The behaviour §4.4 prescribes for a replace block (stated from the spec,
to compare with the source's `replaceBlock`): pair index-by-index up to the
longer block; both present → one Modified iff similarity strictly exceeds the
threshold, else Deleted + Added; a leftover is a single Deleted/Added. -/
def replaceBlockSpec (oldb newb : List Para) (i1 j1 : Nat) (minSim : ℚ) :
    List DiffResult :=
  (List.range (max oldb.length newb.length)).flatMap (fun idx =>
    match oldb.get? idx, newb.get? idx with
    | some o, some nn =>
      if minSim < ratioQ o nn then
        [⟨DType.modified, some o, some nn, some (i1 + idx + 1),
          some (j1 + idx + 1), some (ratioQ o nn)⟩]
      else
        [⟨DType.deleted, some o, none, some (i1 + idx + 1), none, none⟩,
         ⟨DType.added, none, some nn, none, some (j1 + idx + 1), none⟩]
    | some o, none => [⟨DType.deleted, some o, none, some (i1 + idx + 1), none, none⟩]
    | none, some nn => [⟨DType.added, none, some nn, none, some (j1 + idx + 1), none⟩]
    | none, none => [])

/-- C3 counterexample: epub_simple_diff_cli's `align` performs no similarity
check at all — a replace pair with similarity 0 (not greater than the 0.5
threshold) is still emitted as one `mod` row instead of Deleted + Added. -/
theorem C3_cex :
    ratioQ ['k', 'k'] ['z', 'z'] = 0 ∧
    simpleAlign [['k', 'k']] [['z', 'z']] =
      [⟨RowTag.mod, some ['k', 'k'], some ['z', 'z'], some 1, some 1⟩] := by
  constructor
  · have hm : totalMatches ['k', 'k'] ['z', 'z'] = 0 := by decide
    rw [ratioQ, hm]
    norm_num
  · decide

/-- C3 (amended): in `compare_paragraphs` (the thresholded variants), for
non-empty units the replace branch behaves exactly as §4.4 prescribes, and a
pair whose similarity equals the threshold exactly is emitted as Deleted +
Added, not Modified; epub_simple_diff_cli's `align` instead marks every
both-present pair `mod` without any similarity check. -/
theorem C3_replace_threshold (oldb newb : List Para) (i1 j1 : Nat) (minSim : ℚ)
    (hold : ∀ p ∈ oldb, p ≠ []) (hnew : ∀ p ∈ newb, p ≠ []) :
    replaceBlock oldb newb i1 j1 minSim = replaceBlockSpec oldb newb i1 j1 minSim ∧
    (∀ (idx : Nat) (o nn : Para), oldb.get? idx = some o → newb.get? idx = some nn →
      ratioQ o nn = minSim →
      cmpReplPair oldb newb i1 j1 minSim idx =
        [⟨DType.deleted, some o, none, some (i1 + idx + 1), none, none⟩,
         ⟨DType.added, none, some nn, none, some (j1 + idx + 1), none⟩]) := by
  constructor
  · unfold replaceBlock replaceBlockSpec
    apply flatMap_congr_mem
    intro idx hidx
    cases hgo : oldb.get? idx with
    | some o =>
      have hto : truthy (some o) = true :=
        (truthy_some_iff o).mpr (hold o (List.get?_mem hgo))
      cases hgn : newb.get? idx with
      | some nn =>
        have htn : truthy (some nn) = true :=
          (truthy_some_iff nn).mpr (hnew nn (List.get?_mem hgn))
        simp only [cmpReplPair, hgo, hgn, if_pos (And.intro hto htn), Option.getD_some]
      | none =>
        simp only [cmpReplPair, hgo, hgn]
        rw [if_neg (show ¬(truthy (some o) = true ∧
            truthy (none : Option Para) = true) from
          fun hcon => by exact absurd hcon.2 (by simp [truthy]))]
        rw [if_pos hto]
    | none =>
      simp only [cmpReplPair, hgo]
      cases hgn : newb.get? idx with
      | some nn =>
        have htn : truthy (some nn) = true :=
          (truthy_some_iff nn).mpr (hnew nn (List.get?_mem hgn))
        rw [if_neg (show ¬(truthy (none : Option Para) = true ∧
            truthy (some nn) = true) from
          fun hcon => by exact absurd hcon.1 (by simp [truthy]))]
        rw [if_neg (show ¬truthy (none : Option Para) = true from by simp [truthy])]
        rw [if_pos htn]
      | none =>
        rw [if_neg (show ¬(truthy (none : Option Para) = true ∧
            truthy (none : Option Para) = true) from
          fun hcon => by exact absurd hcon.1 (by simp [truthy]))]
        rw [if_neg (show ¬truthy (none : Option Para) = true from by simp [truthy])]
        rw [if_neg (show ¬truthy (none : Option Para) = true from by simp [truthy])]
  · intro idx o nn hgo hgn hrq
    have hto : truthy (some o) = true :=
      (truthy_some_iff o).mpr (hold o (List.get?_mem hgo))
    have htn : truthy (some nn) = true :=
      (truthy_some_iff nn).mpr (hnew nn (List.get?_mem hgn))
    simp only [cmpReplPair, hgo, hgn, if_pos (And.intro hto htn), Option.getD_some]
    rw [if_neg (show ¬minSim < ratioQ o nn from by rw [hrq]; exact lt_irrefl _)]

/-- Witness for C3 at a concrete input: similarity exactly 1/2 is a tie, so
the pair becomes Deleted + Added. -/
theorem C3_witness :
    cmpReplPair [['a', 'b']] [['a', 'd']] 0 0 (1 / 2) 0 =
      [⟨DType.deleted, some ['a', 'b'], none, some 1, none, none⟩,
       ⟨DType.added, none, some ['a', 'd'], none, some 1, none⟩] := by
  have hr : ratioQ ['a', 'b'] ['a', 'd'] = 1 / 2 := by
    have hm : totalMatches ['a', 'b'] ['a', 'd'] = 1 := by decide
    rw [ratioQ, hm]
    norm_num
  exact (C3_replace_threshold [['a', 'b']] [['a', 'd']] 0 0 (1 / 2)
    (by decide) (by decide)).2 0 ['a', 'b'] ['a', 'd'] rfl rfl hr

/-- C4: stripping the markup/escaping (the spans carry the raw substrings),
the Equal spans together with the left-tagged (delete/replace) spans of
`highlight_diff`'s left rendering concatenate back to the first input, and
the Equal plus right-tagged (insert/replace) spans of the right rendering
concatenate back to the second. -/
theorem C4_roundtrip : ∀ t1 t2 : List Char,
    spansText (highlightDiff t1 t2).1 = t1 ∧
    spansText (highlightDiff t1 t2).2.1 = t2 := by
  intro t1 t2
  unfold highlightDiff
  by_cases he : t1 = t2
  · rw [if_pos he]
    constructor <;> simp [spansText]
  · rw [if_neg he]
    constructor
    · have h := opsLeftText (getOpcodes_ok t1 t2)
      simpa using h
    · have h := opsRightText (getOpcodes_ok t1 t2)
      simpa using h

/-- C10: a replace pair whose old side is the empty string is treated by the
Python truthiness test as if that side were absent — no emitted op ever
references the empty unit's old position; concretely,
`compare_paragraphs(["a"], [""])` emits only a Deleted op for "a" and no op
for the empty new unit, so coverage fails. -/
theorem C10_truthiness :
    (∀ (oldb newb : List Para) (i1 j1 : Nat) (minSim : ℚ) (idx : Nat),
        oldb.get? idx = some [] →
        ∀ r ∈ replaceBlock oldb newb i1 j1 minSim,
          r.old_idx ≠ some (i1 + idx + 1)) ∧
    compareParagraphs [['a']] [[]] (1 / 2) =
      [⟨DType.deleted, some ['a'], none, some 1, none, none⟩] ∧
    newRefs (compareParagraphs [['a']] [[]] (1 / 2)) = [] := by
  refine ⟨?_, by decide, by decide⟩
  intro oldb newb i1 j1 minSim idx hempty r hr hidx
  rcases List.mem_flatMap.mp hr with ⟨k, -, hmem⟩
  rcases cmpReplPair_old_idx oldb newb i1 j1 minSim k r hmem with hnone | ⟨hsome, htr⟩
  · rw [hnone] at hidx
    exact nomatch hidx
  · rw [hsome] at hidx
    have hk : k = idx := by
      have := Option.some.inj hidx
      omega
    rw [hk, hempty] at htr
    simp [truthy] at htr

/-- Witness for C10's universal part at a concrete input. -/
theorem C10_witness :
    (⟨DType.added, none, some ['r'], none, some 1, none⟩ : DiffResult).old_idx ≠
      some 1 :=
  C10_truthiness.1 [[]] [['r']] 0 0 (1 / 2) 0 rfl _ (by decide)

end EpubDiff

namespace EpubDiff

/-! ## Identity: matching a sequence against itself -/

variable {α : Type} [DecidableEq α]

/-- Position `j` holds an element that survives autojunk filtering. -/
def okAtB (x : List α) (j : Nat) : Bool :=
  match x.get? j with
  | some c => !isPopular x c
  | none => false

/-- Length of the maximal streak of non-popular positions ending at `j`. -/
def streak (x : List α) : Nat → Nat
  | 0 => if okAtB x 0 then 1 else 0
  | j + 1 => if okAtB x (j + 1) then streak x j + 1 else 0

/-- The run length computed by the inner loop for column `j`. -/
def flmK (prev : List (Nat × Nat)) (j : Nat) : Nat :=
  (if j = 0 then 0 else j2Get prev (j - 1)) + 1

/-- One best-state update of the inner loop. -/
def flmStep (prev : List (Nat × Nat)) (i : Nat) (st : FLMState) (j : Nat) : FLMState :=
  if st.bestsize < flmK prev j then ⟨i + 1 - flmK prev j, j + 1 - flmK prev j, flmK prev j⟩
  else st

theorem flmRow_eq (prev : List (Nat × Nat)) (i : Nat) :
    ∀ (js : List Nat) (acc : List (Nat × Nat)) (st : FLMState),
      flmRow prev i js acc st =
        (acc ++ js.map (fun j => (j, flmK prev j)), js.foldl (flmStep prev i) st) := by
  intro js
  induction js with
  | nil => intro acc st; simp [flmRow]
  | cons j js ih =>
    intro acc st
    simp only [flmRow, List.map_cons, List.foldl_cons]
    rw [ih]
    simp [flmK, flmStep]

theorem j2Get_mapped (f : Nat → Nat) :
    ∀ (js : List Nat) (q : Nat),
      j2Get (js.map (fun j => (j, f j))) q = if q ∈ js then f q else 0 := by
  intro js
  induction js with
  | nil => intro q; simp [j2Get]
  | cons j js ih =>
    intro q
    by_cases hq : q = j
    · subst hq
      simp [j2Get, List.find?]
    · unfold j2Get
      simp only [List.map_cons, List.find?]
      rw [show (decide (j = q)) = false from by simp [Ne.symm hq]]
      have := ih q
      unfold j2Get at this
      rw [this]
      simp [hq]

theorem foldl_flmStep_const (prev : List (Nat × Nat)) (i : Nat) :
    ∀ (l : List Nat) (st : FLMState),
      (∀ j ∈ l, flmK prev j ≤ st.bestsize) → l.foldl (flmStep prev i) st = st := by
  intro l
  induction l with
  | nil => intro st _; rfl
  | cons j js ih =>
    intro st h
    simp only [List.foldl_cons]
    have hj : flmK prev j ≤ st.bestsize := h j (List.mem_cons_self j js)
    rw [show flmStep prev i st j = st from by unfold flmStep; rw [if_neg (by omega)]]
    exact ih st (fun q hq => h q (List.mem_cons_of_mem j hq))

theorem mem_b2jGet_iff {x : List α} {c : α} {j : Nat} :
    j ∈ b2jGet x c ↔ x.get? j = some c ∧ isPopular x c = false := by
  constructor
  · intro h
    have hget := (mem_b2jGet h).2
    refine ⟨hget, ?_⟩
    by_contra hpop
    have hpop' : isPopular x c = true := by
      cases hp : isPopular x c
      · exact absurd hp hpop
      · rfl
    unfold b2jGet at h
    rw [if_pos hpop'] at h
    simp at h
  · intro ⟨hget, hpop⟩
    unfold b2jGet
    rw [if_neg (by rw [hpop]; exact Bool.false_ne_true)]
    unfold b2jList
    refine List.mem_filter.mpr ⟨?_, ?_⟩
    · refine List.mem_range.mpr ?_
      by_contra hnot
      rw [List.get?_eq_none.mpr (Nat.le_of_not_lt hnot)] at hget
      exact nomatch hget
    · exact decide_eq_true hget

theorem b2jGet_sorted (x : List α) (c : α) : (b2jGet x c).Pairwise (· < ·) := by
  unfold b2jGet
  by_cases hpop : isPopular x c
  · rw [if_pos hpop]; exact List.Pairwise.nil
  · rw [if_neg hpop]
    unfold b2jList
    exact (List.pairwise_lt_range x.length).filter _

theorem okAtB_of_mem {x : List α} {c : α} {j : Nat} (h : j ∈ b2jGet x c) :
    okAtB x j = true := by
  rcases mem_b2jGet_iff.mp h with ⟨hget, hpop⟩
  unfold okAtB
  rw [hget]
  simp [hpop]

theorem streak_of_ok {x : List α} {j : Nat} (h : okAtB x j = true) :
    streak x j = (if j = 0 then 0 else streak x (j - 1)) + 1 := by
  cases j with
  | zero => simp [streak, h]
  | succ m => simp [streak, h]

end EpubDiff

namespace EpubDiff

variable {α : Type} [DecidableEq α]

theorem j2Get_nil (q : Nat) : j2Get ([] : List (Nat × Nat)) q = 0 := rfl

/-- Matching a sequence against itself, one row: the j2len map stays bounded
by the streaks, the diagonal entry is exactly the streak, and the best block
stays diagonal and dominates all streaks seen so far.  This is the crux of
the identity argument: off-diagonal runs are always bounded by an
already-dominated streak, so the best block never leaves the diagonal, even
when autojunk removes popular elements. -/
theorem flmRow_identity_step (x : List α) (r : Nat) (hr : r < x.length)
    (m : List (Nat × Nat))
    (hm1 : ∀ q, j2Get m q ≤ streak x q)
    (hm2 : ∀ q, j2Get m q ≤ (if r = 0 then 0 else streak x (r - 1)))
    (hm3 : r ≠ 0 → j2Get m (r - 1) = streak x (r - 1))
    (st : FLMState)
    (hd : st.besti = st.bestj)
    (hbs : ∀ q, q < r → streak x q ≤ st.bestsize) :
    (∀ q, j2Get (flmRow m r (flmRowJs x x 0 x.length r) [] st).1 q ≤ streak x q) ∧
    (∀ q, j2Get (flmRow m r (flmRowJs x x 0 x.length r) [] st).1 q ≤ streak x r) ∧
    j2Get (flmRow m r (flmRowJs x x 0 x.length r) [] st).1 r = streak x r ∧
    (flmRow m r (flmRowJs x x 0 x.length r) [] st).2.besti =
      (flmRow m r (flmRowJs x x 0 x.length r) [] st).2.bestj ∧
    (∀ q, q < r + 1 →
      streak x q ≤ (flmRow m r (flmRowJs x x 0 x.length r) [] st).2.bestsize) := by
  have hget : x.get? r = some (x.get ⟨r, hr⟩) := List.get?_eq_get hr
  set c := x.get ⟨r, hr⟩ with hcdef
  have hjs : flmRowJs x x 0 x.length r = b2jGet x c := by
    unfold flmRowJs
    rw [hget]
    apply List.filter_eq_self.mpr
    intro j hj
    have hjn := (mem_b2jGet hj).1
    simp [hjn]
  rw [hjs, flmRow_eq]
  simp only [List.nil_append]
  by_cases hpop : isPopular x c = true
  · have hempty : b2jGet x c = [] := by unfold b2jGet; rw [if_pos hpop]
    have hok : okAtB x r = false := by
      unfold okAtB
      rw [hget]
      simp [hpop]
    have hstreak0 : streak x r = 0 := by
      cases r with
      | zero => simp [streak, hok]
      | succ v => simp [streak, hok]
    rw [hempty]
    simp only [List.map_nil, List.foldl_nil]
    refine ⟨fun q => by rw [j2Get_nil]; omega,
      fun q => by rw [j2Get_nil]; omega,
      by rw [j2Get_nil, hstreak0],
      hd, ?_⟩
    intro q hq
    rcases Nat.lt_or_ge q r with h | h
    · exact hbs q h
    · have hqr : q = r := by omega
      rw [hqr, hstreak0]
      omega
  · have hpop' : isPopular x c = false := by
      cases hp : isPopular x c
      · rfl
      · exact absurd hp (by simpa using hpop)
    have hmemr : r ∈ b2jGet x c := mem_b2jGet_iff.mpr ⟨hget, hpop'⟩
    have hokr : okAtB x r = true := okAtB_of_mem hmemr
    have hstreakr : streak x r = (if r = 0 then 0 else streak x (r - 1)) + 1 :=
      streak_of_ok hokr
    have hkdiag : flmK m r = streak x r := by
      unfold flmK
      by_cases hr0 : r = 0
      · rw [if_pos hr0, hstreakr, if_pos hr0]
      · rw [if_neg hr0, hm3 hr0, hstreakr, if_neg hr0]
    have hkb1 : ∀ j ∈ b2jGet x c, flmK m j ≤ streak x j := by
      intro j hj
      have hokj : okAtB x j = true := okAtB_of_mem hj
      have hsj : streak x j = (if j = 0 then 0 else streak x (j - 1)) + 1 :=
        streak_of_ok hokj
      unfold flmK
      by_cases hj0 : j = 0
      · rw [if_pos hj0, hsj, if_pos hj0]
      · rw [if_neg hj0, hsj, if_neg hj0]
        have := hm1 (j - 1)
        omega
    have hkb2 : ∀ j ∈ b2jGet x c, flmK m j ≤ streak x r := by
      intro j hj
      unfold flmK
      rw [hstreakr]
      by_cases hj0 : j = 0
      · rw [if_pos hj0]; omega
      · rw [if_neg hj0]
        have := hm2 (j - 1)
        by_cases hr0 : r = 0
        · rw [if_pos hr0] at this ⊢; omega
        · rw [if_neg hr0] at this ⊢; omega
    refine ⟨?_, ?_, ?_, ?_, ?_⟩
    · intro q
      rw [j2Get_mapped]
      by_cases hq : q ∈ b2jGet x c
      · rw [if_pos hq]; exact hkb1 q hq
      · rw [if_neg hq]; omega
    · intro q
      rw [j2Get_mapped]
      by_cases hq : q ∈ b2jGet x c
      · rw [if_pos hq]; exact hkb2 q hq
      · rw [if_neg hq]; omega
    · rw [j2Get_mapped, if_pos hmemr, hkdiag]
    all_goals {
      rcases List.append_of_mem hmemr with ⟨l1, l2, hsplit⟩
      have hsort := b2jGet_sorted x c
      rw [hsplit] at hsort
      rcases List.pairwise_append.mp hsort with ⟨-, hs2, hs12⟩
      have hl1 : ∀ j ∈ l1, j < r :=
        fun j hj => hs12 j hj r (List.mem_cons_self r l2)
      have hl2 : ∀ j ∈ l2, r < j := (List.pairwise_cons.mp hs2).1
      have hl1mem : ∀ j ∈ l1, j ∈ b2jGet x c := by
        intro j hj; rw [hsplit]; exact List.mem_append.mpr (Or.inl hj)
      have hl2mem : ∀ j ∈ l2, j ∈ b2jGet x c := by
        intro j hj
        rw [hsplit]
        exact List.mem_append.mpr (Or.inr (List.mem_cons_of_mem r hj))
      rw [hsplit, List.foldl_append, List.foldl_cons]
      have hst1 : l1.foldl (flmStep m r) st = st := by
        apply foldl_flmStep_const
        intro j hj
        calc flmK m j ≤ streak x j := hkb1 j (hl1mem j hj)
        _ ≤ st.bestsize := hbs j (hl1 j hj)
      rw [hst1]
      have hst2 : (flmStep m r st r).besti = (flmStep m r st r).bestj ∧
          streak x r ≤ (flmStep m r st r).bestsize ∧
          st.bestsize ≤ (flmStep m r st r).bestsize := by
        unfold flmStep
        by_cases hup : st.bestsize < flmK m r
        · rw [if_pos hup]
          refine ⟨rfl, ?_, ?_⟩
          · show streak x r ≤ flmK m r
            omega
          · show st.bestsize ≤ flmK m r
            omega
        · rw [if_neg hup]
          exact ⟨hd, by omega, le_refl _⟩
      have hst3 : l2.foldl (flmStep m r) (flmStep m r st r) = flmStep m r st r := by
        apply foldl_flmStep_const
        intro j hj
        calc flmK m j ≤ streak x r := hkb2 j (hl2mem j hj)
        _ ≤ (flmStep m r st r).bestsize := hst2.2.1
      rw [hst3]
      first
      | exact hst2.1
      | { intro q hq
          rcases Nat.lt_or_ge q r with h | h
          · calc streak x q ≤ st.bestsize := hbs q h
            _ ≤ (flmStep m r st r).bestsize := hst2.2.2
          · have hqr : q = r := by omega
            rw [hqr]
            exact hst2.2.1 }
    }

end EpubDiff

namespace EpubDiff

variable {α : Type} [DecidableEq α]

/-- Dynamic-program phase of `find_longest_match` on a pair of identical
sequences: the best block is diagonal and its size dominates every streak. -/
theorem flmRows_identity (x : List α) :
    ∀ (cnt r : Nat) (m : List (Nat × Nat)) (st : FLMState),
      r + cnt = x.length →
      (∀ q, j2Get m q ≤ streak x q) →
      (∀ q, j2Get m q ≤ (if r = 0 then 0 else streak x (r - 1))) →
      (r ≠ 0 → j2Get m (r - 1) = streak x (r - 1)) →
      st.besti = st.bestj →
      (∀ q, q < r → streak x q ≤ st.bestsize) →
      (flmRows x x 0 x.length (List.range' r cnt) m st).2.besti =
        (flmRows x x 0 x.length (List.range' r cnt) m st).2.bestj ∧
      ∀ q, q < x.length →
        streak x q ≤ (flmRows x x 0 x.length (List.range' r cnt) m st).2.bestsize := by
  intro cnt
  induction cnt with
  | zero =>
    intro r m st hsum hm1 hm2 hm3 hdg hbs
    simp only [List.range'_zero, flmRows]
    exact ⟨hdg, fun q hq => hbs q (by omega)⟩
  | succ k ih =>
    intro r m st hsum hm1 hm2 hm3 hdg hbs
    rw [List.range'_succ]
    simp only [flmRows]
    have hr : r < x.length := by omega
    rcases flmRow_identity_step x r hr m hm1 hm2 hm3 st hdg hbs with
      ⟨ho1, ho2, ho3, ho4, ho5⟩
    exact ih (r + 1) _ _ (by omega) ho1
      (by intro q; rw [if_neg (Nat.succ_ne_zero r)]; simpa using ho2 q)
      (by intro _; simpa using ho3) ho4 (by simpa using ho5)

theorem extendBackward_stuck {a b : List α} (alo blo fuel : Nat) (st : FLMState)
    (h : ¬alo < st.besti) : extendBackward a b alo blo fuel st = st := by
  cases fuel with
  | zero => rfl
  | succ f =>
    simp only [extendBackward]
    rw [if_neg (fun hcon => h hcon.1)]

theorem extendBackward_diag_eval (x : List α) :
    ∀ (d s : Nat), d + s ≤ x.length →
      extendBackward x x 0 0 d ⟨d, d, s⟩ = ⟨0, 0, s + d⟩ := by
  intro d
  induction d with
  | zero =>
    intro s h
    simp [extendBackward]
  | succ d ih =>
    intro s h
    have hd : d < x.length := by omega
    obtain ⟨c, hc⟩ : ∃ c, x.get? d = some c := ⟨_, List.get?_eq_get hd⟩
    have hguard : 0 < (⟨d + 1, d + 1, s⟩ : FLMState).besti ∧
        0 < (⟨d + 1, d + 1, s⟩ : FLMState).bestj ∧
        eqAt x x ((⟨d + 1, d + 1, s⟩ : FLMState).besti - 1)
          ((⟨d + 1, d + 1, s⟩ : FLMState).bestj - 1) = true := by
      refine ⟨by show 0 < d + 1; omega, by show 0 < d + 1; omega, ?_⟩
      show eqAt x x d d = true
      unfold eqAt
      rw [hc]
      simp
    simp only [extendBackward]
    rw [if_pos hguard]
    show extendBackward x x 0 0 d ⟨d, d, s + 1⟩ = ⟨0, 0, s + (d + 1)⟩
    rw [ih (s + 1) (by omega)]
    congr 1
    omega

theorem extendForward_diag_eval (x : List α) :
    ∀ (fuel s : Nat), fuel = x.length - s → s ≤ x.length →
      extendForward x x x.length x.length fuel ⟨0, 0, s⟩ = ⟨0, 0, x.length⟩ := by
  intro fuel
  induction fuel with
  | zero =>
    intro s h1 h2
    have hs : s = x.length := by omega
    subst hs
    rfl
  | succ f ih =>
    intro s h1 h2
    have hs : s < x.length := by omega
    obtain ⟨c, hc⟩ : ∃ c, x.get? s = some c := ⟨_, List.get?_eq_get hs⟩
    have hguard : (⟨0, 0, s⟩ : FLMState).besti + (⟨0, 0, s⟩ : FLMState).bestsize <
          x.length ∧
        (⟨0, 0, s⟩ : FLMState).bestj + (⟨0, 0, s⟩ : FLMState).bestsize < x.length ∧
        eqAt x x ((⟨0, 0, s⟩ : FLMState).besti + (⟨0, 0, s⟩ : FLMState).bestsize)
          ((⟨0, 0, s⟩ : FLMState).bestj + (⟨0, 0, s⟩ : FLMState).bestsize) = true := by
      refine ⟨by show 0 + s < x.length; omega, by show 0 + s < x.length; omega, ?_⟩
      show eqAt x x (0 + s) (0 + s) = true
      unfold eqAt
      rw [show 0 + s = s from by omega, hc]
      simp
    simp only [extendForward]
    rw [if_pos hguard]
    exact ih (s + 1) (by omega) (by omega)

/-- `find_longest_match` of a sequence against itself over the full window
returns the whole sequence as one block, autojunk notwithstanding: the
dynamic program keeps the best block diagonal, and the non-junk extension
loops then stretch it to the full length. -/
theorem findLongestMatch_self (x : List α) :
    findLongestMatch x x 0 x.length 0 x.length = ⟨0, 0, x.length⟩ := by
  have hj2inv0 : J2Inv x x 0 0 x.length 0 [] := by intro p hp; simp at hp
  have hstinv0 : StInv x x 0 0 x.length 0 (⟨0, 0, 0⟩ : FLMState) := by
    refine ⟨Nat.le_refl 0, ?_, Nat.le_refl 0, ?_, ?_⟩
    · show 0 + 0 ≤ 0
      omega
    · show 0 + 0 ≤ x.length
      omega
    · intro t ht
      exact absurd (show t < 0 from ht) (by omega)
  have hinv := flmRows_inv x.length 0 [] (⟨0, 0, 0⟩ : FLMState) (Nat.le_refl 0)
    hj2inv0 hstinv0
  have hdiag := flmRows_identity x x.length 0 [] ⟨0, 0, 0⟩ (by omega)
    (fun q => by rw [j2Get_nil]; omega)
    (fun q => by rw [j2Get_nil]; simp)
    (fun hcon => absurd rfl hcon)
    rfl
    (fun q hq => absurd hq (by omega))
  unfold findLongestMatch
  rw [show x.length - 0 = x.length from by omega]
  dsimp only
  rcases hEx : (flmRows x x 0 x.length (List.range' 0 x.length) [] ⟨0, 0, 0⟩).2
    with ⟨bi, bj, bs⟩
  rw [hEx] at hdiag hinv
  have hbi : bi = bj := by simpa using hdiag.1
  subst hbi
  have hsum : bi + bs ≤ 0 + x.length := hinv.h2
  rw [show (⟨bi, bi, bs⟩ : FLMState).besti = bi from rfl]
  rw [extendBackward_diag_eval x bi bs (by omega)]
  rw [show x.length - ((⟨0, 0, bs + bi⟩ : FLMState).besti +
      (⟨0, 0, bs + bi⟩ : FLMState).bestsize) = x.length - (bs + bi) from by
    show x.length - (0 + (bs + bi)) = x.length - (bs + bi)
    omega]
  exact extendForward_diag_eval x (x.length - (bs + bi)) (bs + bi) rfl (by omega)

theorem findLongestMatch_degenerate (a b : List α) (w v : Nat) :
    findLongestMatch a b w w v v = ⟨w, v, 0⟩ := by
  unfold findLongestMatch
  rw [show w - w = 0 from by omega]
  dsimp only
  simp only [List.range'_zero, flmRows]
  rw [extendBackward_stuck w v _ _ (by show ¬w < w; omega)]
  rw [show w - ((⟨w, v, 0⟩ : FLMState).besti + (⟨w, v, 0⟩ : FLMState).bestsize) = 0
    from by show w - (w + 0) = 0; omega]
  rfl

end EpubDiff

namespace EpubDiff

variable {α : Type} [DecidableEq α]

theorem matchingBlocksAux_degenerate (a b : List α) (fuel w v : Nat) :
    matchingBlocksAux a b fuel w w v v = [] := by
  cases fuel with
  | zero => rfl
  | succ f =>
    simp only [matchingBlocksAux]
    rw [findLongestMatch_degenerate]
    rfl

/-- `get_matching_blocks` of a nonempty sequence against itself: one full
block plus the terminator. -/
theorem getMatchingBlocks_self (x : List α) (h : x ≠ []) :
    getMatchingBlocks x x = [(0, 0, x.length), (x.length, x.length, 0)] := by
  have hn : 0 < x.length := List.length_pos.mpr h
  rw [getMatchingBlocks]
  simp only [matchingBlocksAux]
  rw [findLongestMatch_self]
  rw [if_neg (show ¬(⟨0, 0, x.length⟩ : FLMState).bestsize = 0 from by
    show ¬x.length = 0
    omega)]
  show mergeAux 0 0 0
      (matchingBlocksAux x x (x.length + x.length) 0 0 0 0 ++ [(0, 0, x.length)] ++
        matchingBlocksAux x x (x.length + x.length) (0 + x.length) x.length
          (0 + x.length) x.length) ++ [(x.length, x.length, 0)] = _
  rw [show 0 + x.length = x.length from by omega]
  rw [matchingBlocksAux_degenerate, matchingBlocksAux_degenerate]
  simp only [List.nil_append, List.append_nil]
  simp only [mergeAux]
  simp [hn.ne']

/-- `get_opcodes` of a nonempty sequence against itself: a single `equal`
opcode covering everything. -/
theorem getOpcodes_self (x : List α) (h : x ≠ []) :
    getOpcodes x x = [⟨Tag.equal, 0, x.length, 0, x.length⟩] := by
  have hn : 0 < x.length := List.length_pos.mpr h
  rw [getOpcodes, getMatchingBlocks_self x h]
  simp only [opcodesAux]
  rw [if_neg (show ¬x.length = 0 from by omega)]
  rw [if_pos trivial]
  simp

theorem totalMatches_self (x : List α) (h : x ≠ []) :
    totalMatches x x = x.length := by
  rw [totalMatches, getMatchingBlocks_self x h]
  simp

/-- `ratio()` of any sequence against itself is exactly 1 (for the empty
sequence by the `1.0`-convention branch). -/
theorem ratioQ_self (x : List α) : ratioQ x x = 1 := by
  by_cases h : x = []
  · subst h
    rfl
  · have hn : 0 < x.length := List.length_pos.mpr h
    rw [ratioQ, if_neg (by omega), totalMatches_self x h]
    have hq : (0 : ℚ) < (x.length : ℚ) := by exact_mod_cast hn
    rw [div_eq_one_iff_eq (by linarith)]
    ring

end EpubDiff

namespace EpubDiff

/-- C5 counterexample: `SequenceMatcher.ratio` is not symmetric even on tiny
inputs — `ratio("ab", "bacb") = 2/3` but `ratio("bacb", "ab") = 1/3` (the
greedy leftmost-longest block choice differs between the two orders). -/
theorem C5_cex :
    ratioQ (['a', 'b'] : List Char) ['b', 'a', 'c', 'b'] ≠
      ratioQ (['b', 'a', 'c', 'b'] : List Char) ['a', 'b'] := by
  have h1 : totalMatches (['a', 'b'] : List Char) ['b', 'a', 'c', 'b'] = 2 := by
    decide
  have h2 : totalMatches (['b', 'a', 'c', 'b'] : List Char) ['a', 'b'] = 1 := by
    decide
  simp only [ratioQ, h1, h2, List.length_cons, List.length_nil]
  norm_num

/-- C5 (amended): the similarity `ratio` always lies in `[0, 1]`, and
`ratio(a, a) = 1` for every `a` (the empty case by the convention branch);
but symmetry does not hold in general. -/
theorem C5_similarity (a b : List Char) :
    (0 ≤ ratioQ a b ∧ ratioQ a b ≤ 1) ∧ ratioQ a a = 1 := by
  refine ⟨⟨?_, ?_⟩, ratioQ_self a⟩
  · rw [ratioQ]
    split_ifs with h
    · norm_num
    · positivity
  · rw [ratioQ]
    split_ifs with h
    · norm_num
    · have hlen : 0 < a.length + b.length := Nat.pos_of_ne_zero h
      have hpos : (0 : ℚ) < (a.length : ℚ) + (b.length : ℚ) := by
        exact_mod_cast hlen
      rw [div_le_one hpos]
      have hm := totalMatches_le a b
      have : 2 * totalMatches a b ≤ a.length + b.length := by omega
      exact_mod_cast this

/-- C6: on identical inputs, `align(X, X)` is exactly the in-order list of
`same` rows (one per paragraph, with matching 1-based positions), and
`highlight_diff(s, s)` reports `changed = false`. -/
theorem C6_identity :
    (∀ X : List Para, simpleAlign X X =
      (List.range X.length).map (fun k =>
        ⟨RowTag.same, X.get? k, X.get? k, some (k + 1), some (k + 1)⟩)) ∧
    ∀ s : List Char, (highlightDiff s s).2.2 = false := by
  constructor
  · intro X
    by_cases h : X = []
    · subst h
      rfl
    · rw [simpleAlign, getOpcodes_self X h]
      simp only [List.flatMap_cons, List.flatMap_nil, List.append_nil]
      simp [alignOp]
  · intro s
    rw [highlightDiff, if_pos rfl]

end EpubDiff

namespace EpubDiff

theorem filterMap_const_none {β γ : Type} (L : List β) :
    L.filterMap (fun _ => (none : Option γ)) = [] := by
  induction L with
  | nil => rfl
  | cons x L ih => simp [List.filterMap_cons, ih]

/-- A `some` result of the inner scan is either the incoming best match or an
unclaimed index present in the scanned list. -/
theorem scanPair_some_mem (ch1 : Chapter) (used : List Nat) :
    ∀ (l : List (Nat × Chapter)) (best : Option Nat) (score : ℚ) (j : Nat),
      (scanPair ch1 used l best score).1 = some j →
      best = some j ∨ (j ∉ used ∧ ∃ ch, (j, ch) ∈ l) := by
  intro l
  induction l with
  | nil =>
    intro best score j h
    exact Or.inl (by simp [scanPair] at h; simp [h])
  | cons e rest ih =>
    intro best score j h
    obtain ⟨j2, ch2⟩ := e
    simp only [scanPair] at h
    split_ifs at h with h1 h2 h3
    · rcases ih _ _ _ h with hb | ⟨hnu, ch, hm⟩
      · exact Or.inl hb
      · exact Or.inr ⟨hnu, ch, List.mem_cons_of_mem _ hm⟩
    · have hj : j2 = j := by simpa using h
      subst hj
      exact Or.inr ⟨h1, ch2, List.mem_cons_self _ _⟩
    · rcases ih _ _ _ h with hb | ⟨hnu, ch, hm⟩
      · have hj : j2 = j := by simpa using hb
        subst hj
        exact Or.inr ⟨h1, ch2, List.mem_cons_self _ _⟩
      · exact Or.inr ⟨hnu, ch, List.mem_cons_of_mem _ hm⟩
    · rcases ih _ _ _ h with hb | ⟨hnu, ch, hm⟩
      · exact Or.inl hb
      · exact Or.inr ⟨hnu, ch, List.mem_cons_of_mem _ hm⟩

/-- The left components produced by the outer loop are exactly the scanned old
indices, in order. -/
theorem matchAux_fst (c2e : List (Nat × Chapter)) :
    ∀ (rest : List (Nat × Chapter)) (matched : List (Option Nat × Option Nat))
      (used : List Nat),
      (matchAux c2e rest matched used).1.filterMap Prod.fst =
        matched.filterMap Prod.fst ++ rest.map Prod.fst := by
  intro rest
  induction rest with
  | nil =>
    intro matched used
    simp [matchAux]
  | cons e rest ih =>
    intro matched used
    obtain ⟨i, ch1⟩ := e
    rcases hs : (scanPair ch1 used c2e none 0).1 with _ | j
    · simp only [matchAux, hs]
      rw [ih]
      simp
    · simp only [matchAux, hs]
      rw [ih]
      simp

/-- The right components produced by the outer loop are exactly the `used`
list it accumulates. -/
theorem matchAux_snd (c2e : List (Nat × Chapter)) :
    ∀ (rest : List (Nat × Chapter)) (matched : List (Option Nat × Option Nat))
      (used : List Nat),
      matched.filterMap Prod.snd = used →
      (matchAux c2e rest matched used).1.filterMap Prod.snd =
        (matchAux c2e rest matched used).2 := by
  intro rest
  induction rest with
  | nil =>
    intro matched used h
    simp only [matchAux]
    exact h
  | cons e rest ih =>
    intro matched used h
    obtain ⟨i, ch1⟩ := e
    rcases hs : (scanPair ch1 used c2e none 0).1 with _ | j
    · simp only [matchAux, hs]
      exact ih _ _ (by simp [h])
    · simp only [matchAux, hs]
      exact ih _ _ (by simp [h])

/-- The accumulated `used` list stays duplicate-free and inside the scanned
new-chapter indices. -/
theorem matchAux_used (c2e : List (Nat × Chapter)) :
    ∀ (rest : List (Nat × Chapter)) (matched : List (Option Nat × Option Nat))
      (used : List Nat),
      used.Nodup → (∀ j ∈ used, ∃ ch, (j, ch) ∈ c2e) →
      (matchAux c2e rest matched used).2.Nodup ∧
        ∀ j ∈ (matchAux c2e rest matched used).2, ∃ ch, (j, ch) ∈ c2e := by
  intro rest
  induction rest with
  | nil =>
    intro matched used h1 h2
    simp only [matchAux]
    exact ⟨h1, h2⟩
  | cons e rest ih =>
    intro matched used h1 h2
    obtain ⟨i, ch1⟩ := e
    rcases hs : (scanPair ch1 used c2e none 0).1 with _ | j
    · simp only [matchAux, hs]
      exact ih _ _ h1 h2
    · simp only [matchAux, hs]
      rcases scanPair_some_mem ch1 used c2e none 0 j hs with hb | ⟨hnu, ch, hm⟩
      · exact nomatch hb
      · refine ih _ _ ?_ ?_
        · simp [List.nodup_append, h1, hnu]
        · intro j2 hj2
          rcases List.mem_append.mp hj2 with hin | hin
          · exact h2 j2 hin
          · rw [List.mem_singleton] at hin
            subst hin
            exact ⟨ch, hm⟩

/-- Every row the outer loop appends has its left side present. -/
theorem matchAux_sides (c2e : List (Nat × Chapter)) :
    ∀ (rest : List (Nat × Chapter)) (matched : List (Option Nat × Option Nat))
      (used : List Nat),
      (∀ r ∈ matched, r.1.isSome = true ∨ r.2.isSome = true) →
      ∀ r ∈ (matchAux c2e rest matched used).1,
        r.1.isSome = true ∨ r.2.isSome = true := by
  intro rest
  induction rest with
  | nil =>
    intro matched used h
    simpa [matchAux] using h
  | cons e rest ih =>
    intro matched used h
    obtain ⟨i, ch1⟩ := e
    rcases hs : (scanPair ch1 used c2e none 0).1 with _ | j
    all_goals simp only [matchAux, hs]
    all_goals refine ih _ _ ?_
    all_goals intro r hr
    all_goals rcases List.mem_append.mp hr with hin | hin
    · exact h r hin
    · rw [List.mem_singleton] at hin
      subst hin
      exact Or.inl rfl
    · exact h r hin
    · rw [List.mem_singleton] at hin
      subst hin
      exact Or.inl rfl

/-- C7: the pairing invariant of `match_chapters` — the left sides are exactly
the old chapter indices in order, the right sides are a permutation of the new
chapter indices (so each is claimed exactly once), and every pairing has at
least one side present. -/
theorem C7_pairing (c1 c2 : List Chapter) :
    (matchChapters c1 c2).filterMap Prod.fst = List.range c1.length ∧
    ((matchChapters c1 c2).filterMap Prod.snd).Perm (List.range c2.length) ∧
    ∀ r ∈ matchChapters c1 c2, r.1.isSome = true ∨ r.2.isSome = true := by
  have hused := matchAux_used c2.enum c1.enum [] [] List.nodup_nil (by simp)
  have hsub : ∀ j ∈ (matchAux c2.enum c1.enum [] []).2, j < c2.length := by
    intro j hj
    obtain ⟨ch, hm⟩ := hused.2 j hj
    have hmm : j ∈ c2.enum.map Prod.fst := List.mem_map_of_mem Prod.fst hm
    simpa using hmm
  refine ⟨?_, ?_, ?_⟩
  · simp only [matchChapters]
    rw [List.filterMap_append, matchAux_fst c2.enum c1.enum [] [],
      List.filterMap_map]
    simp [filterMap_const_none]
  · simp only [matchChapters]
    rw [List.filterMap_append, matchAux_snd c2.enum c1.enum [] [] rfl,
      List.filterMap_map]
    have hid : ((List.range c2.length).filter
        (fun j => decide (j ∉ (matchAux c2.enum c1.enum [] []).2))).filterMap
          (Prod.snd ∘ fun j => ((none : Option Nat), some j)) =
        (List.range c2.length).filter
          (fun j => decide (j ∉ (matchAux c2.enum c1.enum [] []).2)) := by
      have hcomp : ((Prod.snd ∘ fun j => ((none : Option Nat), some j)) :
          Nat → Option Nat) = fun j => some j := rfl
      rw [hcomp, List.filterMap_some]
    rw [hid]
    have h1 : (matchAux c2.enum c1.enum [] []).2.Perm
        ((List.range c2.length).filter
          (fun j => decide (j ∈ (matchAux c2.enum c1.enum [] []).2))) := by
      rw [List.perm_ext_iff_of_nodup hused.1
        (List.Nodup.filter _ (List.nodup_range _))]
      intro a
      simp only [List.mem_filter, List.mem_range, decide_eq_true_eq]
      exact ⟨fun hin => ⟨hsub a hin, hin⟩, fun hin => hin.2⟩
    have h2 := List.filter_append_perm
      (fun j => decide (j ∈ (matchAux c2.enum c1.enum [] []).2))
      (List.range c2.length)
    have h3 : (fun j => !decide (j ∈ (matchAux c2.enum c1.enum [] []).2)) =
        (fun j => decide (j ∉ (matchAux c2.enum c1.enum [] []).2)) := by
      funext j
      simp [decide_not]
    rw [h3] at h2
    exact (h1.append_right _).trans h2
  · intro r hr
    simp only [matchChapters] at hr
    rcases List.mem_append.mp hr with hin | hin
    · exact matchAux_sides c2.enum c1.enum [] [] (by simp) r hin
    · obtain ⟨j, hj, hrj⟩ := List.mem_map.mp hin
      subst hrj
      exact Or.inr rfl

end EpubDiff

namespace EpubDiff

/-- The inner scan claims the first unclaimed exactly-equal title, breaking
immediately: whatever the running best is, a `find?` hit decides the result. -/
theorem scanPair_title (ch1 : Chapter) (used : List Nat) :
    ∀ (l : List (Nat × Chapter)) (best : Option Nat) (score : ℚ)
      (e : Nat × Chapter),
      l.find? (fun e2 => !decide (e2.1 ∈ used) && decide (ch1.title = e2.2.title)) =
        some e →
      scanPair ch1 used l best score = (some e.1, 1) := by
  intro l
  induction l with
  | nil =>
    intro best score e h
    exact nomatch h
  | cons e2 rest ih =>
    intro best score e h
    obtain ⟨j2, ch2⟩ := e2
    by_cases h1 : j2 ∈ used
    · rw [List.find?_cons_of_neg _ (by simp [h1])] at h
      simp only [scanPair]
      rw [if_pos h1]
      exact ih _ _ _ h
    · by_cases h2 : ch1.title = ch2.title
      · rw [List.find?_cons_of_pos _ (by simp [h1, h2])] at h
        simp only [scanPair]
        rw [if_neg h1, if_pos h2]
        injection h with h3
        rw [← h3]
      · rw [List.find?_cons_of_neg _ (by simp [h2])] at h
        simp only [scanPair]
        rw [if_neg h1, if_neg h2]
        split_ifs with h3
        · exact ih _ _ _ h
        · exact ih _ _ _ h

/-- Invariant of the inner scan when no unclaimed candidate has an equal
title: the score never decreases, the result is either the incoming state or
an unclaimed candidate scoring above `0.3`, and every unclaimed candidate
scores at most `max(result, 0.3)`. -/
theorem scanPair_inv (ch1 : Chapter) (used : List Nat) :
    ∀ (l : List (Nat × Chapter)) (best : Option Nat) (score : ℚ),
      (∀ e ∈ l, e.1 ∉ used → ch1.title ≠ e.2.title) →
      score ≤ (scanPair ch1 used l best score).2 ∧
      (scanPair ch1 used l best score = (best, score) ∨
        ∃ j ch, (j, ch) ∈ l ∧ j ∉ used ∧
          (scanPair ch1 used l best score).1 = some j ∧
          (scanPair ch1 used l best score).2 = chapterScore ch1 ch ∧
          (3 : ℚ) / 10 < (scanPair ch1 used l best score).2) ∧
      ∀ e ∈ l, e.1 ∉ used →
        chapterScore ch1 e.2 ≤ (scanPair ch1 used l best score).2 ∨
          chapterScore ch1 e.2 ≤ (3 : ℚ) / 10 := by
  intro l
  induction l with
  | nil =>
    intro best score ht
    refine ⟨le_refl _, Or.inl rfl, ?_⟩
    intro e he
    exact absurd he (List.not_mem_nil e)
  | cons e2 rest ih =>
    intro best score ht
    obtain ⟨j2, ch2⟩ := e2
    simp only [scanPair]
    by_cases h1 : j2 ∈ used
    · rw [if_pos h1]
      obtain ⟨ha, hb, hc⟩ :=
        ih best score (fun e he hn => ht e (List.mem_cons_of_mem _ he) hn)
      refine ⟨ha, ?_, ?_⟩
      · rcases hb with h | ⟨j, ch, hm, hnu, h3, h4, h5⟩
        · exact Or.inl h
        · exact Or.inr ⟨j, ch, List.mem_cons_of_mem _ hm, hnu, h3, h4, h5⟩
      · intro e he hn
        rcases List.mem_cons.mp he with rfl | hm
        · exact absurd h1 hn
        · exact hc e hm hn
    · rw [if_neg h1]
      have hne := ht (j2, ch2) (List.mem_cons_self _ _) h1
      rw [if_neg hne]
      by_cases h3 : score < chapterScore ch1 ch2 ∧
          (3 : ℚ) / 10 < chapterScore ch1 ch2
      · rw [if_pos h3]
        obtain ⟨ha, hb, hc⟩ := ih (some j2) (chapterScore ch1 ch2)
          (fun e he hn => ht e (List.mem_cons_of_mem _ he) hn)
        refine ⟨le_trans (le_of_lt h3.1) ha, ?_, ?_⟩
        · rcases hb with h | ⟨j, ch, hm, hnu, h4, h5, h6⟩
          · refine Or.inr ⟨j2, ch2, List.mem_cons_self _ _, h1, ?_, ?_, ?_⟩
            · rw [h]
            · rw [h]
            · rw [h]
              exact h3.2
          · exact Or.inr ⟨j, ch, List.mem_cons_of_mem _ hm, hnu, h4, h5, h6⟩
        · intro e he hn
          rcases List.mem_cons.mp he with rfl | hm
          · exact Or.inl ha
          · exact hc e hm hn
      · rw [if_neg h3]
        obtain ⟨ha, hb, hc⟩ :=
          ih best score (fun e he hn => ht e (List.mem_cons_of_mem _ he) hn)
        refine ⟨ha, ?_, ?_⟩
        · rcases hb with h | ⟨j, ch, hm, hnu, h4, h5, h6⟩
          · exact Or.inl h
          · exact Or.inr ⟨j, ch, List.mem_cons_of_mem _ hm, hnu, h4, h5, h6⟩
        · intro e he hn
          rcases List.mem_cons.mp he with rfl | hm
          · rcases not_and_or.mp h3 with h4 | h4
            · exact Or.inl (le_trans (not_lt.mp h4) ha)
            · exact Or.inr (not_lt.mp h4)
          · exact hc e hm hn

end EpubDiff

namespace EpubDiff

/-- C8: the chapter matcher claims the first not-yet-claimed new chapter with
an exactly equal title (the scan breaks immediately on title equality); absent
any unclaimed title match, a `some` result is an unclaimed candidate whose
first-500-character similarity score is maximal among unclaimed candidates and
strictly above `0.3`, and a `none` result means no unclaimed candidate scores
above `0.3`; and with identical titles in swapped order the matcher pairs the
chapters by title. -/
theorem C8_matcher :
    (∀ (ch1 : Chapter) (used : List Nat) (l : List (Nat × Chapter))
        (e : Nat × Chapter),
      l.find? (fun e2 => !decide (e2.1 ∈ used) && decide (ch1.title = e2.2.title)) =
        some e →
      scanPair ch1 used l none 0 = (some e.1, 1)) ∧
    (∀ (ch1 : Chapter) (used : List Nat) (l : List (Nat × Chapter)),
      (∀ e ∈ l, e.1 ∉ used → ch1.title ≠ e.2.title) →
      ((scanPair ch1 used l none 0).1 = none →
        ∀ e ∈ l, e.1 ∉ used → chapterScore ch1 e.2 ≤ (3 : ℚ) / 10) ∧
      ∀ j, (scanPair ch1 used l none 0).1 = some j →
        (∃ ch, (j, ch) ∈ l ∧ j ∉ used ∧
          (scanPair ch1 used l none 0).2 = chapterScore ch1 ch ∧
          (3 : ℚ) / 10 < (scanPair ch1 used l none 0).2) ∧
        ∀ e ∈ l, e.1 ∉ used →
          chapterScore ch1 e.2 ≤ (scanPair ch1 used l none 0).2 ∨
            chapterScore ch1 e.2 ≤ (3 : ℚ) / 10) ∧
    ∀ (tA tB : List Char) (pA pB : List Para), tA ≠ tB →
      matchChapters [⟨tA, pA, []⟩, ⟨tB, pB, []⟩] [⟨tB, pB, []⟩, ⟨tA, pA, []⟩] =
        [(some 0, some 1), (some 1, some 0)] := by
  refine ⟨fun ch1 used l e h => scanPair_title ch1 used l none 0 e h, ?_, ?_⟩
  · intro ch1 used l ht
    obtain ⟨ha, hb, hc⟩ := scanPair_inv ch1 used l none 0 ht
    constructor
    · intro hnone e he hn
      rcases hb with h | ⟨j, ch, hm, hnu, h3, h4, h5⟩
      · rcases hc e he hn with hle | hle
        · rw [h] at hle
          exact le_trans hle (by norm_num)
        · exact hle
      · rw [h3] at hnone
        exact nomatch hnone
    · intro j hj
      rcases hb with h | ⟨j2, ch, hm, hnu, h3, h4, h5⟩
      · rw [h] at hj
        exact nomatch hj
      · have hjj : j2 = j := by
          rw [h3] at hj
          simpa using hj
        subst hjj
        exact ⟨⟨ch, hm, hnu, h4, h5⟩, hc⟩
  · intro tA tB pA pB hne
    have hBA : tB ≠ tA := fun hcon => hne hcon.symm
    simp only [matchChapters, List.enum, List.enumFrom, matchAux, scanPair,
      chapterScore, ratioQ, List.take_nil, List.length_nil]
    norm_num [hne, hBA]
    intro a ha hb
    omega

end EpubDiff

namespace EpubDiff

theorem C8_witness :
    scanPair ⟨['t'], [], []⟩ [] [(0, ⟨['t'], [], []⟩)] none 0 = (some 0, 1) ∧
    (∀ e ∈ ([] : List (Nat × Chapter)), e.1 ∉ ([] : List Nat) →
      chapterScore ⟨['t'], [], []⟩ e.2 ≤ (3 : ℚ) / 10) ∧
    matchChapters [⟨['a'], [], []⟩, ⟨['b'], [], []⟩]
        [⟨['b'], [], []⟩, ⟨['a'], [], []⟩] =
      [(some 0, some 1), (some 1, some 0)] :=
  ⟨C8_matcher.1 ⟨['t'], [], []⟩ [] [(0, ⟨['t'], [], []⟩)] (0, ⟨['t'], [], []⟩)
      (by decide),
    (C8_matcher.2.1 ⟨['t'], [], []⟩ [] [] (by simp)).1 rfl,
    C8_matcher.2.2 ['a'] ['b'] [] [] (by decide)⟩

end EpubDiff

namespace EpubDiff

/-- C9 (the classifier is modelled from the spec; its source is not among the
provided files): `is_new(p)` returns `(not new, 1.0)` whenever the normalized
paragraph is an exact key of the reference set, and — when neither the exact
step, the containment step, nor the empty-segments guard fires — classifies
the paragraph as new iff the matched-sentence ratio is below `0.5`, returning
that ratio as the confidence. -/
theorem C9_classifier (baseline : List Para) (p : Para) :
    (normalizeKey p ∈ refKeys baseline → isNewPara baseline p = (false, 1)) ∧
    (normalizeKey p ∉ refKeys baseline →
      ¬(baseline.map normalizeKey).any (fun rk =>
          decide (normalizeKey p <:+: rk) || decide (rk <:+: normalizeKey p)) = true →
      ¬(sentenceSegs p).isEmpty = true →
      (isNewPara baseline p).1 = decide ((isNewPara baseline p).2 < 1 / 2) ∧
      (isNewPara baseline p).2 =
        ((sentenceSegs p).countP (fun s => decide (s ∈ refKeys baseline) ||
            ((baseline.map normalizeKey).take 500).any
              (fun rk => decide (s <:+: rk))) : ℚ) /
          ((sentenceSegs p).length : ℚ)) := by
  constructor
  · intro h
    simp only [isNewPara]
    rw [if_pos h]
  · intro h1 h2 h3
    simp only [isNewPara]
    rw [if_neg h1, if_neg h2, if_neg h3]
    exact ⟨rfl, rfl⟩

theorem C9_witness :
    isNewPara [['a']] ['a'] = (false, 1) ∧
    ((isNewPara [['a', 'b']] ['q', 'w', 'e', 'r', 't', 'y', 'u', 'i', 'o', 'p', '.']).1 =
        decide ((isNewPara [['a', 'b']]
          ['q', 'w', 'e', 'r', 't', 'y', 'u', 'i', 'o', 'p', '.']).2 < 1 / 2) ∧
      (isNewPara [['a', 'b']] ['q', 'w', 'e', 'r', 't', 'y', 'u', 'i', 'o', 'p', '.']).2 =
        ((sentenceSegs ['q', 'w', 'e', 'r', 't', 'y', 'u', 'i', 'o', 'p', '.']).countP
            (fun s => decide (s ∈ refKeys [['a', 'b']]) ||
              (([['a', 'b']].map normalizeKey).take 500).any
                (fun rk => decide (s <:+: rk))) : ℚ) /
          ((sentenceSegs ['q', 'w', 'e', 'r', 't', 'y', 'u', 'i', 'o', 'p', '.']).length : ℚ)) :=
  ⟨(C9_classifier [['a']] ['a']).1 (by decide),
    (C9_classifier [['a', 'b']] ['q', 'w', 'e', 'r', 't', 'y', 'u', 'i', 'o', 'p', '.']).2
      (by decide) (by decide) (by decide)⟩

end EpubDiff
